import Mathlib

/-!
imnodes: the identity-keyed object pool.

A shallow embedding of `src/imnodes_internal.hpp`, section "object pool
implementation": `ImObjectPool<T>` with `ObjectPoolFind`, `ObjectPoolUpdate`,
`ObjectPoolReset`, `ObjectPoolFindOrCreateIndex` and
`ObjectPoolFindOrCreateObject`.  The optional index `ImOptionalIndex`, the click
interaction state and the editor context are embedded as far as their integer
and boolean members go.

Conventions of the embedding.

* A C `int` is an `Int` lying in `INT_MIN .. INT_MAX` (`isInt`).  The cast
  `static_cast<ImGuiID>(id)` to the unsigned 32-bit key type is written out as a
  reduction modulo `2^32` (`toImGuiID`).
* An `ImVector<X>` is a `List X`; its `size()` is the list length, a natural
  number: a pool of more than `INT_MAX` slots is not modelled.
* An operation whose `IM_ASSERT` fails, or which would touch memory outside a
  vector, yields `none`.
-/

namespace ImNodes

/-! ## Machine integers -/

/-- The value of `INT_MIN` (`<climits>`, 32-bit `int`). -/
def INT_MIN : Int := -2147483648

/-- The value of `INT_MAX` (`<climits>`, 32-bit `int`). -/
def INT_MAX : Int := 2147483647

/-- The predicate "is a value of the C type `int`". -/
def isInt (x : Int) : Prop := INT_MIN ≤ x ∧ x ≤ INT_MAX

instance (x : Int) : Decidable (isInt x) := by
  unfold isInt; infer_instance

/-- The conversion `static_cast<ImGuiID>(id)` from `int` to the unsigned 32-bit
`ImGuiID`: reduction modulo `2^32`. -/
def toImGuiID (id : Int) : Nat := (id % 4294967296).toNat

/-! ## The key-value store `ImGuiStorage` -/

/-- Modelled from the spec: `ImGuiStoragePair` belongs to Dear ImGui
(`imgui.h`), which is not part of this repository.  One entry of the
identity-to-slot map: an `ImGuiID` key and the `int` stored under it. -/
structure ImGuiStoragePair where
  key : Nat
  val_i : Int
deriving DecidableEq

/-- Modelled from the spec: `ImGuiStorage` belongs to Dear ImGui (`imgui.h`),
which is not part of this repository; the spec asks of the identity-to-slot map
only that it "support sentinel absent lookups".  It is a vector of pairs kept in
ascending key order. -/
structure ImGuiStorage where
  Data : List ImGuiStoragePair
deriving DecidableEq

/-- Modelled from the spec: lookup in the list behind `ImGuiStorage::GetInt`.
The lower bound of `key` is found by a scan from the left, which on ascending
data is the position `ImLowerBound` computes; the stored value is returned when
the entry there carries `key`, and `default_val` otherwise. -/
def ImGuiStorage.getIntAux : List ImGuiStoragePair → Nat → Int → Int
  | [], _, default_val => default_val
  | p :: rest, key, default_val =>
    if p.key < key then getIntAux rest key default_val
    else if p.key = key then p.val_i
    else default_val

/-- Modelled from the spec: `ImGuiStorage::GetInt(key, default_val)`, the
"sentinel absent lookup" of the identity-to-slot map. -/
def ImGuiStorage.GetInt (s : ImGuiStorage) (key : Nat) (default_val : Int) : Int :=
  ImGuiStorage.getIntAux s.Data key default_val

/-- Modelled from the spec: the list update behind `ImGuiStorage::SetInt`.  At
the lower bound of `key` the entry is overwritten when it carries `key`, and a
new pair is inserted in front of it otherwise. -/
def ImGuiStorage.setIntAux : List ImGuiStoragePair → Nat → Int → List ImGuiStoragePair
  | [], key, val => [⟨key, val⟩]
  | p :: rest, key, val =>
    if p.key < key then p :: setIntAux rest key val
    else if p.key = key then ⟨key, val⟩ :: rest
    else ⟨key, val⟩ :: p :: rest

/-- Modelled from the spec: `ImGuiStorage::SetInt(key, val)`. -/
def ImGuiStorage.SetInt (s : ImGuiStorage) (key : Nat) (val : Int) : ImGuiStorage :=
  ⟨ImGuiStorage.setIntAux s.Data key val⟩

/-- The keys of a storage are strictly ascending: the representation invariant
of `ImGuiStorage`. -/
def ImGuiStorage.Sorted (s : ImGuiStorage) : Prop :=
  (s.Data.map ImGuiStoragePair.key).Pairwise (· < ·)

/-! ## Pool objects -/

/-- The interface the source asks of a pool element type `T` (comment above
`ImObjectPool`): a constructor from an id and an `int id` member.  `dtor` is
the effect of `~T()` on the bytes of the slot, which `ObjectPoolUpdate` goes on
reading in later calls. -/
class PoolObject (T : Type) where
  ctor : Int → T
  Id : T → Int
  dtor : T → T
  Id_ctor : ∀ id, Id (ctor id) = id

/-- The struct `ImNodeData`, restricted to its integer and boolean members (the geometry
and style members are floating-point and play no part in the pool). -/
structure ImNodeData where
  Id : Int
  PinIndices : List Int
  Draggable : Bool
deriving DecidableEq

/-- The struct `ImPinData`, restricted to its integer members defined in this header
(`Type_` is the member `Type`). -/
structure ImPinData where
  Id : Int
  ParentNodeIdx : Int
  Type_ : Int
deriving DecidableEq

/-- The struct `ImLinkData`, restricted to its integer members. -/
structure ImLinkData where
  Id : Int
  StartPinIdx : Int
  EndPinIdx : Int
deriving DecidableEq

/-- The enumerator `ImNodesAttributeType_None`. -/
def ImNodesAttributeType_None : Int := 0

/-- The enumerator `ImNodesAttributeType_Input`. -/
def ImNodesAttributeType_Input : Int := 1

/-- The enumerator `ImNodesAttributeType_Output`. -/
def ImNodesAttributeType_Output : Int := 2

/-- The constructor `explicit ImNodeData(const int node_id)`. -/
def ImNodeData.ctor (node_id : Int) : ImNodeData :=
  { Id := node_id, PinIndices := [], Draggable := true }

/-- The destructor `~ImNodeData()`, whose body is `Id = INT_MIN;`.  The other
members are left as they are. -/
def ImNodeData.dtor (n : ImNodeData) : ImNodeData :=
  { n with Id := INT_MIN }

/-- The constructor `explicit ImPinData(const int pin_id)`. -/
def ImPinData.ctor (pin_id : Int) : ImPinData :=
  { Id := pin_id, ParentNodeIdx := 0, Type_ := ImNodesAttributeType_None }

/-- The constructor `explicit ImLinkData(const int link_id)`. -/
def ImLinkData.ctor (link_id : Int) : ImLinkData :=
  { Id := link_id, StartPinIdx := 0, EndPinIdx := 0 }

instance : PoolObject ImNodeData where
  ctor := ImNodeData.ctor
  Id := ImNodeData.Id
  dtor := ImNodeData.dtor
  Id_ctor := fun _ => rfl

/-- The struct `ImPinData` has no user-written destructor: `~T()` leaves the slot as it is. -/
instance : PoolObject ImPinData where
  ctor := ImPinData.ctor
  Id := ImPinData.Id
  dtor := fun p => p
  Id_ctor := fun _ => rfl

/-- The struct `ImLinkData` has no user-written destructor: `~T()` leaves the slot as it is. -/
instance : PoolObject ImLinkData where
  ctor := ImLinkData.ctor
  Id := ImLinkData.Id
  dtor := fun l => l
  Id_ctor := fun _ => rfl

/-! ## The pool -/

/-- The template `template <typename T> struct ImObjectPool`. -/
structure ImObjectPool (T : Type) where
  Pool : List T
  InUse : List Bool
  FreeList : List Int
  IdMap : ImGuiStorage
deriving DecidableEq

/-- The constructor `ImObjectPool()`, which initialises `Pool()` and `IdMap()`:
all four members are empty. -/
def ImObjectPool.empty {T : Type} : ImObjectPool T :=
  { Pool := [], InUse := [], FreeList := [], IdMap := ⟨[]⟩ }

/-- The accessor `ImVector::operator[]` with an `int` index: the position when
`0 <= i < Size` (its `IM_ASSERT`), nothing otherwise. -/
def slotIndex (i : Int) (size : Nat) : Option Nat :=
  if 0 ≤ i ∧ i < (size : Int) then some i.toNat else none

/-- The function `ObjectPoolFind(objects, id)`. -/
def ObjectPoolFind {T : Type} (objects : ImObjectPool T) (id : Int) : Int :=
  objects.IdMap.GetInt (toImGuiID id) (-1)

/-- The body of the loop of `ObjectPoolUpdate` at slot `i`. -/
def ObjectPoolUpdateStep {T : Type} [PoolObject T] (objects : ImObjectPool T) (i : Nat) :
    Option (ImObjectPool T) :=
  match objects.Pool[i]?, objects.InUse[i]? with
  | some obj, some used =>
    let id := PoolObject.Id obj
    if !used && objects.IdMap.GetInt (toImGuiID id) (-1) == (i : Int) then
      some { objects with
        IdMap := objects.IdMap.SetInt (toImGuiID id) (-1)
        FreeList := objects.FreeList ++ [(i : Int)]
        Pool := objects.Pool.set i (PoolObject.dtor obj) }
    else
      some objects
  | _, _ => none

/-- The loop of `ObjectPoolUpdate` run over the slots listed, in order. -/
def ObjectPoolUpdateLoop {T : Type} [PoolObject T] (objects : ImObjectPool T) :
    List Nat → Option (ImObjectPool T)
  | [] => some objects
  | i :: rest =>
    match ObjectPoolUpdateStep objects i with
    | some objects' => ObjectPoolUpdateLoop objects' rest
    | none => none

/-- The function `ObjectPoolUpdate(objects)`: the loop over
`i = 0 .. InUse.size() - 1`.  The body never writes `InUse`, so the bound is the
size at entry. -/
def ObjectPoolUpdate {T : Type} [PoolObject T] (objects : ImObjectPool T) :
    Option (ImObjectPool T) :=
  ObjectPoolUpdateLoop objects (List.range objects.InUse.length)

/-- The function `ObjectPoolReset(objects)`: the `memset` of `InUse` to zero,
skipped when `InUse` is empty. -/
def ObjectPoolReset {T : Type} (objects : ImObjectPool T) : ImObjectPool T :=
  if !objects.InUse.isEmpty then
    { objects with InUse := List.replicate objects.InUse.length false }
  else
    objects

/-- The tail of `ObjectPoolFindOrCreateIndex` shared by both branches:
`InUse[index] = true; return index;`. -/
def flagInUse {T : Type} (objects : ImObjectPool T) (index : Int) :
    Option (Int × ImObjectPool T) :=
  match slotIndex index objects.InUse.length with
  | some i => some (index, { objects with InUse := objects.InUse.set i true })
  | none => none

/-- The function `ObjectPoolFindOrCreateIndex(objects, id)`.  In the growing
branch the slot added by `resize` is uninitialised in the source and is written before it is
read: `Pool` receives `T(id)` by the placement `new`, `InUse` receives `true`. -/
def ObjectPoolFindOrCreateIndex {T : Type} [PoolObject T] (objects : ImObjectPool T) (id : Int) :
    Option (Int × ImObjectPool T) :=
  let index := objects.IdMap.GetInt (toImGuiID id) (-1)
  if index = -1 then
    if objects.FreeList.isEmpty then
      let index : Int := (objects.Pool.length : Int)
      if objects.Pool.length = objects.InUse.length then
        flagInUse
          { objects with
            Pool := objects.Pool ++ [PoolObject.ctor id]
            InUse := objects.InUse ++ [false]
            IdMap := objects.IdMap.SetInt (toImGuiID id) index }
          index
      else
        none
    else
      match objects.FreeList.getLast? with
      | some index =>
        match slotIndex index objects.Pool.length with
        | some i =>
          flagInUse
            { objects with
              FreeList := objects.FreeList.dropLast
              Pool := objects.Pool.set i (PoolObject.ctor id)
              IdMap := objects.IdMap.SetInt (toImGuiID id) index }
            index
        | none => none
      | none => none
  else
    flagInUse objects index

/-- The function `ObjectPoolFindOrCreateObject(objects, id)`: the object
`objects.Pool[index]` at the index found or created, with the pool after the call. -/
def ObjectPoolFindOrCreateObject {T : Type} [PoolObject T] (objects : ImObjectPool T) (id : Int) :
    Option (T × ImObjectPool T) :=
  match ObjectPoolFindOrCreateIndex objects id with
  | some (index, objects') =>
    match slotIndex index objects'.Pool.length with
    | some i =>
      match objects'.Pool[i]? with
      | some obj => some (obj, objects')
      | none => none
    | none => none
  | none => none

/-! ## Call sequences -/

/-- One call on a pool. -/
inductive PoolOp where
  | Reset
  | FindOrCreateIndex (id : Int)
  | Update
deriving DecidableEq

/-- The pool after one call, or nothing when the call fails. -/
def applyOp {T : Type} [PoolObject T] (objects : ImObjectPool T) : PoolOp → Option (ImObjectPool T)
  | .Reset => some (ObjectPoolReset objects)
  | .FindOrCreateIndex id => (ObjectPoolFindOrCreateIndex objects id).map Prod.snd
  | .Update => ObjectPoolUpdate objects

/-- The pool after a sequence of calls, run from left to right. -/
def runOps {T : Type} [PoolObject T] (objects : ImObjectPool T) :
    List PoolOp → Option (ImObjectPool T)
  | [] => some objects
  | op :: rest =>
    match applyOp objects op with
    | some objects' => runOps objects' rest
    | none => none

/-- The id passed in a call, if any, is a C `int`. -/
def validOp : PoolOp → Bool
  | .FindOrCreateIndex id => decide (isInt id)
  | _ => true

/-- Every id passed in the sequence is a C `int`. -/
def validOps (ops : List PoolOp) : Bool :=
  ops.all validOp

/-- The ids passed to `ObjectPoolFindOrCreateIndex` in a sequence of calls. -/
def declaredIds : List PoolOp → List Int
  | [] => []
  | .FindOrCreateIndex id :: rest => id :: declaredIds rest
  | _ :: rest => declaredIds rest

/-- A pool state is reachable when some sequence of `ObjectPoolReset`,
`ObjectPoolFindOrCreateIndex` (with `int` ids) and `ObjectPoolUpdate` calls
leads to it from the empty pool. -/
def Reachable {T : Type} [PoolObject T] (objects : ImObjectPool T) : Prop :=
  ∃ ops : List PoolOp, validOps ops = true ∧ runOps ImObjectPool.empty ops = some objects

/-- The calls of one frame that declares the ids `decls`: `ObjectPoolReset`, one
`ObjectPoolFindOrCreateIndex` per declared id, `ObjectPoolUpdate`. -/
def frameOps (decls : List Int) : List PoolOp :=
  PoolOp.Reset :: (decls.map PoolOp.FindOrCreateIndex ++ [PoolOp.Update])

/-- The calls of a sequence of frames, given the ids each frame declares. -/
def framesOps : List (List Int) → List PoolOp
  | [] => []
  | decls :: rest => frameOps decls ++ framesOps rest

/-- The id `k` is absent, or mapped to a slot whose flag is clear. -/
def Unflagged {T : Type} (p : ImObjectPool T) (k : Int) : Prop :=
  ObjectPoolFind p k = -1 ∨ ∃ i : Nat, ObjectPoolFind p k = (i : Int) ∧ p.InUse[i]? = some false

/-- Whether the id `k` has been passed to `ObjectPoolFindOrCreateIndex` since the
last `ObjectPoolReset` at the end of the calls `ops`, given whether it had been
(`f`) before them. -/
def declaredSinceReset (k : Int) (f : Bool) : List PoolOp → Bool
  | [] => f
  | .Reset :: rest => declaredSinceReset k false rest
  | .FindOrCreateIndex id :: rest => declaredSinceReset k (f || decide (id = k)) rest
  | .Update :: rest => declaredSinceReset k f rest

/-- Every `ObjectPoolUpdate` among the calls `ops` comes after a declaration of
`k` with no `ObjectPoolReset` in between (`f`: such a declaration precedes
`ops`). -/
def declaredAtEveryUpdate (k : Int) (f : Bool) : List PoolOp → Bool
  | [] => true
  | .Reset :: rest => declaredAtEveryUpdate k false rest
  | .FindOrCreateIndex id :: rest => declaredAtEveryUpdate k (f || decide (id = k)) rest
  | .Update :: rest => f && declaredAtEveryUpdate k f rest

/-- The representation invariant of the pool: `Pool` and `InUse` are parallel,
the storage is in key order, every mapped key leads to a slot that holds an
object of that key and is not free, every free slot is a valid and unflagged
one, no slot is free twice, and every slot is free or mapped by its own key. -/
structure PoolInv {T : Type} [PoolObject T] (p : ImObjectPool T) : Prop where
  len : p.Pool.length = p.InUse.length
  sorted : p.IdMap.Sorted
  mapped : ∀ key : Nat, p.IdMap.GetInt key (-1) ≠ -1 →
    ∃ (i : Nat) (obj : T), p.IdMap.GetInt key (-1) = (i : Int) ∧ p.Pool[i]? = some obj ∧
      isInt (PoolObject.Id obj) ∧ toImGuiID (PoolObject.Id obj) = key ∧ (i : Int) ∉ p.FreeList
  free : ∀ x ∈ p.FreeList, ∃ i : Nat, x = (i : Int) ∧ p.InUse[i]? = some false
  nodup : p.FreeList.Nodup
  covered : ∀ (i : Nat) (obj : T), p.Pool[i]? = some obj →
    (i : Int) ∈ p.FreeList ∨ p.IdMap.GetInt (toImGuiID (PoolObject.Id obj)) (-1) = (i : Int)

/-- What one run of the loop of `ObjectPoolUpdate` may change between the pool
`p` before and the pool `q` after: flags and sizes stay, a lookup stays or turns
absent, the lookup of a flagged slot stays, the free list only gains unflagged
slots, and the object of a flagged slot stays. -/
structure UpdRel {T : Type} (p q : ImObjectPool T) : Prop where
  inUse : q.InUse = p.InUse
  poolLen : q.Pool.length = p.Pool.length
  getInt : ∀ key : Nat, q.IdMap.GetInt key (-1) = p.IdMap.GetInt key (-1) ∨
    q.IdMap.GetInt key (-1) = -1
  kept : ∀ (key : Nat) (j : Nat), p.IdMap.GetInt key (-1) = (j : Int) →
    p.InUse[j]? = some true → q.IdMap.GetInt key (-1) = (j : Int)
  freeMono : ∀ x ∈ p.FreeList, x ∈ q.FreeList
  freeNew : ∀ x ∈ q.FreeList, x ∈ p.FreeList ∨ ∃ j : Nat, x = (j : Int) ∧ p.InUse[j]? = some false
  poolKept : ∀ j : Nat, p.InUse[j]? = some true → q.Pool[j]? = p.Pool[j]?

/-! ## Example pools -/

/-- A pool of nodes that holds node 5 in slot 0, not declared in the current
frame: the state after `ObjectPoolFindOrCreateIndex(5)` and `ObjectPoolReset`. -/
def nodesAfterReset : ImObjectPool ImNodeData :=
  { Pool := [ImNodeData.ctor 5], InUse := [false], FreeList := [], IdMap := ⟨[⟨5, 0⟩]⟩ }

/-- A pool whose `InUse` is longer than its `Pool`: the `IM_ASSERT` of
`ObjectPoolFindOrCreateIndex` fails on it. -/
def pinsUnequalSizes : ImObjectPool ImPinData :=
  { Pool := [], InUse := [false], FreeList := [], IdMap := ⟨[]⟩ }

/-- A pool whose free list names slot 5 although the pool has no slot. -/
def pinsDanglingFree : ImObjectPool ImPinData :=
  { Pool := [], InUse := [], FreeList := [5], IdMap := ⟨[]⟩ }

/-- A pool of pins with pin 7 live in slot 0 and slot 1 free: the state after
declaring pins 7 and 8, ending the frame, and a second frame that declares only
pin 7. -/
def pinsOneFree : ImObjectPool ImPinData :=
  { Pool := [ImPinData.ctor 7, ImPinData.ctor 8], InUse := [true, false], FreeList := [1],
    IdMap := ⟨[⟨7, 0⟩, ⟨8, -1⟩]⟩ }

/-! ## The optional index and the click interaction state -/

/-- The constant `ImOptionalIndex::INVALID_INDEX`. -/
def INVALID_INDEX : Int := -1

/-- The struct `ImOptionalIndex`, whose one member is `m_index`. -/
structure ImOptionalIndex where
  m_index : Int
deriving DecidableEq

/-- The constructor `ImOptionalIndex()`. -/
def ImOptionalIndex.ctor : ImOptionalIndex :=
  { m_index := INVALID_INDEX }

/-- The constructor `ImOptionalIndex(const int value)`. -/
def ImOptionalIndex.ctorInt (value : Int) : ImOptionalIndex :=
  { m_index := value }

/-- The observer `HasValue()`. -/
def ImOptionalIndex.HasValue (a : ImOptionalIndex) : Bool :=
  a.m_index != INVALID_INDEX

/-- The observer `Value()`: `m_index` when `IM_ASSERT(HasValue())` holds, nothing
when the assertion fails. -/
def ImOptionalIndex.Value (a : ImOptionalIndex) : Option Int :=
  if a.HasValue then some a.m_index else none

/-- The modifier `operator=(const int value)`. -/
def ImOptionalIndex.operator_assign (a : ImOptionalIndex) (value : Int) : ImOptionalIndex :=
  { a with m_index := value }

/-- The modifier `Reset()`. -/
def ImOptionalIndex.Reset (a : ImOptionalIndex) : ImOptionalIndex :=
  { a with m_index := INVALID_INDEX }

/-- The comparison `operator==(const ImOptionalIndex& rhs)`. -/
def ImOptionalIndex.operator_eq (a rhs : ImOptionalIndex) : Bool :=
  a.m_index == rhs.m_index

/-- The comparison `operator==(const int rhs)`. -/
def ImOptionalIndex.operator_eq_int (a : ImOptionalIndex) (rhs : Int) : Bool :=
  a.m_index == rhs

/-- The comparison `operator!=(const ImOptionalIndex& rhs)`. -/
def ImOptionalIndex.operator_ne (a rhs : ImOptionalIndex) : Bool :=
  a.m_index != rhs.m_index

/-- The comparison `operator!=(const int rhs)`. -/
def ImOptionalIndex.operator_ne_int (a : ImOptionalIndex) (rhs : Int) : Bool :=
  a.m_index != rhs

/-- The enumerator `ImNodesClickInteractionType_Node`. -/
def ImNodesClickInteractionType_Node : Int := 0

/-- The enumerator `ImNodesClickInteractionType_Link`. -/
def ImNodesClickInteractionType_Link : Int := 1

/-- The enumerator `ImNodesClickInteractionType_LinkCreation`. -/
def ImNodesClickInteractionType_LinkCreation : Int := 2

/-- The enumerator `ImNodesClickInteractionType_Panning`. -/
def ImNodesClickInteractionType_Panning : Int := 3

/-- The enumerator `ImNodesClickInteractionType_BoxSelection`. -/
def ImNodesClickInteractionType_BoxSelection : Int := 4

/-- The enumerator `ImNodesClickInteractionType_ImGuiItem`. -/
def ImNodesClickInteractionType_ImGuiItem : Int := 5

/-- The enumerator `ImNodesClickInteractionType_None`, the seventh of its enum. -/
def ImNodesClickInteractionType_None : Int := 6

/-- The unnamed struct of the member `LinkCreation` of `ImClickInteractionState`
(`Type_` is the member `Type`). -/
structure LinkCreationState where
  StartPinIdx : Int
  EndPinIdx : ImOptionalIndex
  Type_ : Int
deriving DecidableEq

/-- The struct `ImClickInteractionState`, without the floating-point rectangle of
`BoxSelector` (`Type_` is the member `Type`). -/
structure ImClickInteractionState where
  Type_ : Int
  LinkCreation : LinkCreationState
deriving DecidableEq

/-- The constructor `ImClickInteractionState() = default`: every member takes its
default member initialiser, `Type{ImNodesClickInteractionType_None}`,
`StartPinIdx{}`, the default `ImOptionalIndex` and `Type{}`. -/
def ImClickInteractionState.ctor : ImClickInteractionState :=
  { Type_ := ImNodesClickInteractionType_None
    LinkCreation := { StartPinIdx := 0, EndPinIdx := ImOptionalIndex.ctor, Type_ := 0 } }

/-- The struct `ImNodesEditorContext`, restricted to its pools, its index
vectors, its click interaction state and its boolean member. -/
structure ImNodesEditorContext where
  Nodes : ImObjectPool ImNodeData
  Pins : ImObjectPool ImPinData
  Links : ImObjectPool ImLinkData
  NodeDepthOrder : List Int
  SelectedNodeIndices : List Int
  SelectedLinkIndices : List Int
  ClickInteraction : ImClickInteractionState
  MiniMapEnabled : Bool
deriving DecidableEq

/-- The constructor `ImNodesEditorContext()`: the pools and vectors are empty,
`ClickInteraction` is default-constructed, `MiniMapEnabled{false}`. -/
def ImNodesEditorContext.ctor : ImNodesEditorContext :=
  { Nodes := ImObjectPool.empty
    Pins := ImObjectPool.empty
    Links := ImObjectPool.empty
    NodeDepthOrder := []
    SelectedNodeIndices := []
    SelectedLinkIndices := []
    ClickInteraction := ImClickInteractionState.ctor
    MiniMapEnabled := false }

/-- The call `ObjectPoolUpdate(editor.Nodes)`: the function is handed the pool
alone, so of the editor context only the member `Nodes` is written. -/
def updateNodes (editor : ImNodesEditorContext) : Option ImNodesEditorContext :=
  (ObjectPoolUpdate editor.Nodes).map fun nodes => { editor with Nodes := nodes }

/-- The call `ObjectPoolUpdate(editor.Links)`: the function is handed the pool
alone, so of the editor context only the member `Links` is written. -/
def updateLinks (editor : ImNodesEditorContext) : Option ImNodesEditorContext :=
  (ObjectPoolUpdate editor.Links).map fun links => { editor with Links := links }

/-- The condition of the `if` in the loop of `ObjectPoolUpdate` at slot `i`:
whether the loop body evicts the slot. -/
def evicts {T : Type} [PoolObject T] (objects : ImObjectPool T) (i : Nat) : Bool :=
  match objects.Pool[i]?, objects.InUse[i]? with
  | some obj, some used =>
    !used && objects.IdMap.GetInt (toImGuiID (PoolObject.Id obj)) (-1) == (i : Int)
  | _, _ => false

/-- The slots `ObjectPoolUpdate` evicts, in the order in which its loop visits
them. -/
def evictedSlots {T : Type} [PoolObject T] (objects : ImObjectPool T) : List Nat :=
  (List.range objects.InUse.length).filter (evicts objects)

/-- An editor context whose node 5 is selected, sits in slot 0 and was not
declared in the current frame. -/
def editorStaleSelection : ImNodesEditorContext :=
  { ImNodesEditorContext.ctor with
    Nodes := { Pool := [ImNodeData.ctor 5], InUse := [false], FreeList := [],
               IdMap := ⟨[⟨5, 0⟩]⟩ }
    Links := { Pool := [ImLinkData.ctor 3], InUse := [false], FreeList := [],
               IdMap := ⟨[⟨3, 0⟩]⟩ }
    NodeDepthOrder := [0]
    SelectedNodeIndices := [0]
    SelectedLinkIndices := [0] }

/-- A pool of pins 7, 8 and 9 in slots 0, 1 and 2, in a frame that has declared
only pin 8 so far. -/
def pinsOneDeclared : ImObjectPool ImPinData :=
  { Pool := [ImPinData.ctor 7, ImPinData.ctor 8, ImPinData.ctor 9],
    InUse := [false, true, false], FreeList := [],
    IdMap := ⟨[⟨7, 0⟩, ⟨8, 1⟩, ⟨9, 2⟩]⟩ }

/-- A pool of nodes in which the node with id `INT_MIN` is declared in slot 0 and
node 5 in slot 1 is not: the next `ObjectPoolUpdate` evicts node 5 and its
destructor writes `INT_MIN` into slot 1. -/
def nodesWithIntMin : ImObjectPool ImNodeData :=
  { Pool := [ImNodeData.ctor INT_MIN, ImNodeData.ctor 5], InUse := [true, false],
    FreeList := [], IdMap := ⟨[⟨5, 1⟩, ⟨2147483648, 0⟩]⟩ }

/-- The ids of the objects in the slots that are not on the free list, in slot
order. -/
def liveIds {T : Type} [PoolObject T] (objects : ImObjectPool T) : List Int :=
  ((List.range objects.Pool.length).filter
      (fun i : Nat => !decide ((i : Int) ∈ objects.FreeList))).map
    (fun i : Nat => (objects.Pool[i]?.map PoolObject.Id).getD 0)

/-- A pool of pins 7 and 8 as the pool calls leave it, every record still the
one its constructor made: pin 7 declared in this frame, pin 8 not. -/
def pinsFresh : ImObjectPool ImPinData :=
  { Pool := [ImPinData.ctor 7, ImPinData.ctor 8], InUse := [true, false], FreeList := [],
    IdMap := ⟨[⟨7, 0⟩, ⟨8, 1⟩]⟩ }

/-- The pool `pinsFresh` after the caller has written the records: pin 7 is an
input pin of the node in slot 3, pin 8 an output pin of the node in slot 4. -/
def pinsWritten : ImObjectPool ImPinData :=
  { Pool := [{ Id := 7, ParentNodeIdx := 3, Type_ := ImNodesAttributeType_Input },
             { Id := 8, ParentNodeIdx := 4, Type_ := ImNodesAttributeType_Output }],
    InUse := [true, false], FreeList := [], IdMap := ⟨[⟨7, 0⟩, ⟨8, 1⟩]⟩ }

/-! ## Facts about machine integers and the storage -/

theorem toImGuiID_inj {a b : Int} (ha : isInt a) (hb : isInt b)
    (h : toImGuiID a = toImGuiID b) : a = b := by
  unfold isInt INT_MIN INT_MAX at *
  unfold toImGuiID at h
  omega

theorem setIntAux_cons_lt (p : ImGuiStoragePair) (rest : List ImGuiStoragePair) (key : Nat)
    (val : Int) (h : p.key < key) :
    ImGuiStorage.setIntAux (p :: rest) key val = p :: ImGuiStorage.setIntAux rest key val := by
  rw [ImGuiStorage.setIntAux, if_pos h]

theorem setIntAux_cons_eq (p : ImGuiStoragePair) (rest : List ImGuiStoragePair) (key : Nat)
    (val : Int) (h : p.key = key) :
    ImGuiStorage.setIntAux (p :: rest) key val = ⟨key, val⟩ :: rest := by
  rw [ImGuiStorage.setIntAux, if_neg (by omega), if_pos h]

theorem setIntAux_cons_gt (p : ImGuiStoragePair) (rest : List ImGuiStoragePair) (key : Nat)
    (val : Int) (h : key < p.key) :
    ImGuiStorage.setIntAux (p :: rest) key val = ⟨key, val⟩ :: p :: rest := by
  rw [ImGuiStorage.setIntAux, if_neg (by omega), if_neg (by omega)]

theorem getIntAux_cons_lt (p : ImGuiStoragePair) (rest : List ImGuiStoragePair) (key : Nat)
    (d : Int) (h : p.key < key) :
    ImGuiStorage.getIntAux (p :: rest) key d = ImGuiStorage.getIntAux rest key d := by
  rw [ImGuiStorage.getIntAux, if_pos h]

theorem getIntAux_cons_eq (p : ImGuiStoragePair) (rest : List ImGuiStoragePair) (key : Nat)
    (d : Int) (h : p.key = key) :
    ImGuiStorage.getIntAux (p :: rest) key d = p.val_i := by
  rw [ImGuiStorage.getIntAux, if_neg (by omega), if_pos h]

theorem getIntAux_cons_gt (p : ImGuiStoragePair) (rest : List ImGuiStoragePair) (key : Nat)
    (d : Int) (h : key < p.key) :
    ImGuiStorage.getIntAux (p :: rest) key d = d := by
  rw [ImGuiStorage.getIntAux, if_neg (by omega), if_neg (by omega)]

theorem getIntAux_setIntAux_same (l : List ImGuiStoragePair) (key : Nat) (val d : Int) :
    ImGuiStorage.getIntAux (ImGuiStorage.setIntAux l key val) key d = val := by
  induction l with
  | nil => simp [ImGuiStorage.setIntAux, ImGuiStorage.getIntAux]
  | cons p rest ih =>
    rcases Nat.lt_trichotomy p.key key with h | h | h
    · rw [setIntAux_cons_lt _ _ _ _ h, getIntAux_cons_lt _ _ _ _ h]
      exact ih
    · rw [setIntAux_cons_eq _ _ _ _ h, getIntAux_cons_eq _ _ _ _ rfl]
    · rw [setIntAux_cons_gt _ _ _ _ h, getIntAux_cons_eq _ _ _ _ rfl]

theorem keys_setIntAux (l : List ImGuiStoragePair) (key : Nat) (val : Int) (x : Nat)
    (hx : x ∈ (ImGuiStorage.setIntAux l key val).map ImGuiStoragePair.key) :
    x = key ∨ x ∈ l.map ImGuiStoragePair.key := by
  induction l with
  | nil =>
    simp [ImGuiStorage.setIntAux] at hx
    exact Or.inl hx
  | cons p rest ih =>
    rcases Nat.lt_trichotomy p.key key with h | h | h
    · rw [setIntAux_cons_lt _ _ _ _ h] at hx
      simp only [List.map_cons, List.mem_cons] at hx ⊢
      rcases hx with hx | hx
      · exact Or.inr (Or.inl hx)
      · rcases ih hx with h' | h'
        · exact Or.inl h'
        · exact Or.inr (Or.inr h')
    · rw [setIntAux_cons_eq _ _ _ _ h] at hx
      simp only [List.map_cons, List.mem_cons] at hx ⊢
      rcases hx with hx | hx
      · exact Or.inl hx
      · exact Or.inr (Or.inr hx)
    · rw [setIntAux_cons_gt _ _ _ _ h] at hx
      simp only [List.map_cons, List.mem_cons] at hx ⊢
      rcases hx with hx | hx | hx
      · exact Or.inl hx
      · exact Or.inr (Or.inl hx)
      · exact Or.inr (Or.inr hx)

theorem sorted_setIntAux (l : List ImGuiStoragePair) (key : Nat) (val : Int)
    (hs : (l.map ImGuiStoragePair.key).Pairwise (· < ·)) :
    ((ImGuiStorage.setIntAux l key val).map ImGuiStoragePair.key).Pairwise (· < ·) := by
  induction l with
  | nil => simp [ImGuiStorage.setIntAux]
  | cons p rest ih =>
    simp only [List.map_cons, List.pairwise_cons] at hs
    rcases Nat.lt_trichotomy p.key key with h | h | h
    · rw [setIntAux_cons_lt _ _ _ _ h]
      simp only [List.map_cons, List.pairwise_cons]
      refine ⟨?_, ih hs.2⟩
      intro x hx
      rcases keys_setIntAux rest key val x hx with h' | h'
      · omega
      · exact hs.1 x h'
    · rw [setIntAux_cons_eq _ _ _ _ h]
      simp only [List.map_cons, List.pairwise_cons]
      refine ⟨?_, hs.2⟩
      intro x hx
      have := hs.1 x hx
      omega
    · rw [setIntAux_cons_gt _ _ _ _ h]
      simp only [List.map_cons, List.pairwise_cons]
      refine ⟨?_, hs.1, hs.2⟩
      intro x hx
      simp only [List.mem_cons] at hx
      rcases hx with hx | hx
      · omega
      · have := hs.1 x hx
        omega

theorem getIntAux_setIntAux_other (l : List ImGuiStoragePair) (key key' : Nat) (val d : Int)
    (hs : (l.map ImGuiStoragePair.key).Pairwise (· < ·)) (hne : key' ≠ key) :
    ImGuiStorage.getIntAux (ImGuiStorage.setIntAux l key val) key' d =
      ImGuiStorage.getIntAux l key' d := by
  induction l with
  | nil =>
    have hk : (⟨key, val⟩ : ImGuiStoragePair).key = key := rfl
    show ImGuiStorage.getIntAux [⟨key, val⟩] key' d = ImGuiStorage.getIntAux [] key' d
    rcases Nat.lt_trichotomy key key' with h | h | h
    · rw [getIntAux_cons_lt _ _ _ _ (by rw [hk]; exact h)]
    · exact absurd h.symm hne
    · rw [getIntAux_cons_gt _ _ _ _ (by rw [hk]; exact h)]
      rfl
  | cons p rest ih =>
    simp only [List.map_cons, List.pairwise_cons] at hs
    have hk : (⟨key, val⟩ : ImGuiStoragePair).key = key := rfl
    rcases Nat.lt_trichotomy p.key key with h | h | h
    · rw [setIntAux_cons_lt _ _ _ _ h]
      rcases Nat.lt_trichotomy p.key key' with h' | h' | h'
      · rw [getIntAux_cons_lt _ _ _ _ h', getIntAux_cons_lt _ _ _ _ h']
        exact ih hs.2
      · rw [getIntAux_cons_eq _ _ _ _ h', getIntAux_cons_eq _ _ _ _ h']
      · rw [getIntAux_cons_gt _ _ _ _ h', getIntAux_cons_gt _ _ _ _ h']
    · rw [setIntAux_cons_eq _ _ _ _ h]
      rcases Nat.lt_trichotomy key key' with h' | h' | h'
      · rw [getIntAux_cons_lt _ _ _ _ (by rw [hk]; exact h'),
          getIntAux_cons_lt _ _ _ _ (by omega)]
      · exact absurd h'.symm hne
      · rw [getIntAux_cons_gt _ _ _ _ (by rw [hk]; exact h'),
          getIntAux_cons_gt _ _ _ _ (by omega)]
    · rw [setIntAux_cons_gt _ _ _ _ h]
      rcases Nat.lt_trichotomy key key' with h' | h' | h'
      · rw [getIntAux_cons_lt _ _ _ _ (by rw [hk]; exact h')]
      · exact absurd h'.symm hne
      · rw [getIntAux_cons_gt _ _ _ _ (by rw [hk]; exact h'),
          getIntAux_cons_gt _ _ _ _ (by omega)]

theorem GetInt_SetInt_same (s : ImGuiStorage) (key : Nat) (val d : Int) :
    (s.SetInt key val).GetInt key d = val :=
  getIntAux_setIntAux_same s.Data key val d

theorem GetInt_SetInt_other (s : ImGuiStorage) (key key' : Nat) (val d : Int)
    (hs : s.Sorted) (hne : key' ≠ key) :
    (s.SetInt key val).GetInt key' d = s.GetInt key' d :=
  getIntAux_setIntAux_other s.Data key key' val d hs hne

theorem Sorted_SetInt (s : ImGuiStorage) (key : Nat) (val : Int) (hs : s.Sorted) :
    (s.SetInt key val).Sorted :=
  sorted_setIntAux s.Data key val hs

/-! ## `ObjectPoolFindOrCreateIndex`, branch by branch -/

theorem slotIndex_natCast (i n : Nat) (h : i < n) : slotIndex (i : Int) n = some i := by
  unfold slotIndex
  rw [if_pos ⟨by omega, by omega⟩]
  simp

theorem slotIndex_eq_some (x : Int) (n i : Nat) (h : slotIndex x n = some i) :
    x = (i : Int) ∧ i < n := by
  unfold slotIndex at h
  split at h
  · injection h with h
    omega
  · cases h

theorem slotIndex_eq_none (x : Int) (n : Nat) (h : ¬ (0 ≤ x ∧ x < (n : Int))) :
    slotIndex x n = none := by
  unfold slotIndex
  rw [if_neg h]

theorem getElem?_some_lt {α : Type} (l : List α) (i : Nat) (a : α) (h : l[i]? = some a) :
    i < l.length := by
  rcases List.getElem?_eq_some.mp h with ⟨h', _⟩
  exact h'

/-- The branch of a mapped id: only the flag of its slot is written. -/
theorem foc_mapped {T : Type} [PoolObject T] (p : ImObjectPool T) (id : Int) (i : Nat)
    (hf : ObjectPoolFind p id = (i : Int)) (hi : i < p.InUse.length) :
    ObjectPoolFindOrCreateIndex p id =
      some ((i : Int), { p with InUse := p.InUse.set i true }) := by
  unfold ObjectPoolFind at hf
  have hne : ¬ ((i : Int) = -1) := by omega
  simp only [ObjectPoolFindOrCreateIndex, hf, hne, if_false, flagInUse, slotIndex_natCast i _ hi]

/-- The branch of an unmapped id with an empty free list: a slot is appended. -/
theorem foc_grow {T : Type} [PoolObject T] (p : ImObjectPool T) (id : Int)
    (hf : ObjectPoolFind p id = -1) (hfl : p.FreeList = [])
    (hlen : p.Pool.length = p.InUse.length) :
    ObjectPoolFindOrCreateIndex p id =
      some ((p.Pool.length : Int),
        { Pool := p.Pool ++ [PoolObject.ctor id]
          InUse := (p.InUse ++ [false]).set p.Pool.length true
          FreeList := p.FreeList
          IdMap := p.IdMap.SetInt (toImGuiID id) (p.Pool.length : Int) }) := by
  unfold ObjectPoolFind at hf
  have hs : slotIndex (p.Pool.length : Int) (p.InUse ++ [false]).length = some p.Pool.length :=
    slotIndex_natCast _ _ (by simp [hlen])
  simp only [ObjectPoolFindOrCreateIndex, hf, if_true, hfl, List.isEmpty_nil, flagInUse, hs]
  simp [hlen]

/-- The branch of an unmapped id with a free slot: the last free slot is reused. -/
theorem foc_reuse {T : Type} [PoolObject T] (p : ImObjectPool T) (id : Int)
    (fl : List Int) (j : Nat)
    (hf : ObjectPoolFind p id = -1) (hfl : p.FreeList = fl ++ [(j : Int)])
    (hjP : j < p.Pool.length) (hjU : j < p.InUse.length) :
    ObjectPoolFindOrCreateIndex p id =
      some ((j : Int),
        { Pool := p.Pool.set j (PoolObject.ctor id)
          InUse := p.InUse.set j true
          FreeList := fl
          IdMap := p.IdMap.SetInt (toImGuiID id) (j : Int) }) := by
  unfold ObjectPoolFind at hf
  have he : (fl ++ [(j : Int)]).isEmpty = false := by
    cases fl <;> rfl
  simp only [ObjectPoolFindOrCreateIndex, hf, if_true, hfl, he, List.getLast?_concat,
    slotIndex_natCast j _ hjP, flagInUse, slotIndex_natCast j _ hjU, List.dropLast_concat]
  simp

/-! ## The invariant is kept by every call -/

theorem PoolInv_empty {T : Type} [PoolObject T] : PoolInv (ImObjectPool.empty : ImObjectPool T) := by
  refine ⟨rfl, ?_, ?_, ?_, ?_, ?_⟩
  · exact List.Pairwise.nil
  · intro key h
    exact absurd rfl h
  · intro x hx
    cases hx
  · exact List.nodup_nil
  · intro i obj h
    simp [ImObjectPool.empty] at h

theorem PoolInv_flag {T : Type} [PoolObject T] (p : ImObjectPool T) (h : PoolInv p) (i : Nat)
    (hi : (i : Int) ∉ p.FreeList) : PoolInv { p with InUse := p.InUse.set i true } := by
  refine ⟨?_, h.sorted, h.mapped, ?_, h.nodup, h.covered⟩
  · show p.Pool.length = (p.InUse.set i true).length
    rw [List.length_set]
    exact h.len
  · intro x hx
    obtain ⟨j, rfl, hj⟩ := h.free x hx
    refine ⟨j, rfl, ?_⟩
    have hne : i ≠ j := by
      rintro rfl
      exact hi hx
    show (p.InUse.set i true)[j]? = some false
    rw [List.getElem?_set_ne hne]
    exact hj

theorem PoolInv_grow {T : Type} [PoolObject T] (p : ImObjectPool T) (h : PoolInv p) (id : Int)
    (hid : isInt id) (hf : p.IdMap.GetInt (toImGuiID id) (-1) = -1) (hfl : p.FreeList = []) :
    PoolInv
      { Pool := p.Pool ++ [PoolObject.ctor id]
        InUse := (p.InUse ++ [false]).set p.Pool.length true
        FreeList := p.FreeList
        IdMap := p.IdMap.SetInt (toImGuiID id) (p.Pool.length : Int) } := by
  refine ⟨?_, Sorted_SetInt _ _ _ h.sorted, ?_, ?_, h.nodup, ?_⟩
  · simp [h.len]
  · intro key hne
    show ∃ (i : Nat) (obj : T),
      (p.IdMap.SetInt (toImGuiID id) (p.Pool.length : Int)).GetInt key (-1) = (i : Int) ∧
      (p.Pool ++ [PoolObject.ctor id])[i]? = some obj ∧ isInt (PoolObject.Id obj) ∧
      toImGuiID (PoolObject.Id obj) = key ∧ (i : Int) ∉ p.FreeList
    change (p.IdMap.SetInt (toImGuiID id) (p.Pool.length : Int)).GetInt key (-1) ≠ -1 at hne
    by_cases hk : key = toImGuiID id
    · subst hk
      refine ⟨p.Pool.length, PoolObject.ctor id, GetInt_SetInt_same _ _ _ _,
        List.getElem?_concat_length _ _, ?_, ?_, ?_⟩
      · rw [PoolObject.Id_ctor]; exact hid
      · rw [PoolObject.Id_ctor]
      · rw [hfl]; simp
    · rw [GetInt_SetInt_other _ _ _ _ _ h.sorted hk] at hne ⊢
      obtain ⟨i, obj, h1, h2, h3, h4, h5⟩ := h.mapped key hne
      refine ⟨i, obj, h1, ?_, h3, h4, h5⟩
      rw [List.getElem?_append_left (getElem?_some_lt _ _ _ h2)]
      exact h2
  · intro x hx
    change x ∈ p.FreeList at hx
    rw [hfl] at hx
    cases hx
  · intro i obj hobj
    change (p.Pool ++ [PoolObject.ctor id])[i]? = some obj at hobj
    show (i : Int) ∈ p.FreeList ∨
      (p.IdMap.SetInt (toImGuiID id) (p.Pool.length : Int)).GetInt
        (toImGuiID (PoolObject.Id obj)) (-1) = (i : Int)
    by_cases hi : i < p.Pool.length
    · rw [List.getElem?_append_left hi] at hobj
      rcases h.covered i obj hobj with hc | hc
      · exact Or.inl hc
      · right
        have hk : toImGuiID (PoolObject.Id obj) ≠ toImGuiID id := by
          intro he
          rw [he, hf] at hc
          omega
        rw [GetInt_SetInt_other _ _ _ _ _ h.sorted hk]
        exact hc
    · have hlt := getElem?_some_lt _ _ _ hobj
      simp only [List.length_append, List.length_singleton] at hlt
      have hi' : i = p.Pool.length := by omega
      subst hi'
      rw [List.getElem?_concat_length] at hobj
      injection hobj with hobj
      subst hobj
      right
      rw [PoolObject.Id_ctor]
      exact GetInt_SetInt_same _ _ _ _

theorem PoolInv_reuse {T : Type} [PoolObject T] (p : ImObjectPool T) (h : PoolInv p) (id : Int)
    (hid : isInt id) (hf : p.IdMap.GetInt (toImGuiID id) (-1) = -1)
    (fl : List Int) (j : Nat) (hfl : p.FreeList = fl ++ [(j : Int)]) (hjP : j < p.Pool.length) :
    PoolInv
      { Pool := p.Pool.set j (PoolObject.ctor id)
        InUse := p.InUse.set j true
        FreeList := fl
        IdMap := p.IdMap.SetInt (toImGuiID id) (j : Int) } := by
  have hnd := h.nodup
  rw [hfl] at hnd
  have hjfl : (j : Int) ∉ fl := by
    intro hmem
    have := (List.nodup_append.mp hnd).2.2 hmem
    simp at this
  have hjmem : (j : Int) ∈ p.FreeList := by rw [hfl]; simp
  have hsub : ∀ x ∈ fl, x ∈ p.FreeList := by
    intro x hx; rw [hfl]; simp [hx]
  refine ⟨?_, Sorted_SetInt _ _ _ h.sorted, ?_, ?_, (List.nodup_append.mp hnd).1, ?_⟩
  · simp [h.len]
  · intro key hne
    show ∃ (i : Nat) (obj : T),
      (p.IdMap.SetInt (toImGuiID id) (j : Int)).GetInt key (-1) = (i : Int) ∧
      (p.Pool.set j (PoolObject.ctor id))[i]? = some obj ∧ isInt (PoolObject.Id obj) ∧
      toImGuiID (PoolObject.Id obj) = key ∧ (i : Int) ∉ fl
    change (p.IdMap.SetInt (toImGuiID id) (j : Int)).GetInt key (-1) ≠ -1 at hne
    by_cases hk : key = toImGuiID id
    · subst hk
      refine ⟨j, PoolObject.ctor id, GetInt_SetInt_same _ _ _ _,
        List.getElem?_set_self hjP, ?_, ?_, hjfl⟩
      · rw [PoolObject.Id_ctor]; exact hid
      · rw [PoolObject.Id_ctor]
    · rw [GetInt_SetInt_other _ _ _ _ _ h.sorted hk] at hne ⊢
      obtain ⟨i, obj, h1, h2, h3, h4, h5⟩ := h.mapped key hne
      have hij : j ≠ i := by
        rintro rfl
        exact h5 hjmem
      refine ⟨i, obj, h1, ?_, h3, h4, fun hm => h5 (hsub _ hm)⟩
      rw [List.getElem?_set_ne hij]
      exact h2
  · intro x hx
    change x ∈ fl at hx
    obtain ⟨i, rfl, hi⟩ := h.free x (hsub x hx)
    refine ⟨i, rfl, ?_⟩
    have hij : j ≠ i := by
      rintro rfl
      exact hjfl hx
    show (p.InUse.set j true)[i]? = some false
    rw [List.getElem?_set_ne hij]
    exact hi
  · intro i obj hobj
    change (p.Pool.set j (PoolObject.ctor id))[i]? = some obj at hobj
    show (i : Int) ∈ fl ∨
      (p.IdMap.SetInt (toImGuiID id) (j : Int)).GetInt
        (toImGuiID (PoolObject.Id obj)) (-1) = (i : Int)
    by_cases hij : j = i
    · subst hij
      rw [List.getElem?_set_self hjP] at hobj
      injection hobj with hobj
      subst hobj
      right
      rw [PoolObject.Id_ctor]
      exact GetInt_SetInt_same _ _ _ _
    · rw [List.getElem?_set_ne hij] at hobj
      rcases h.covered i obj hobj with hc | hc
      · left
        rw [hfl] at hc
        simp only [List.mem_append, List.mem_singleton] at hc
        rcases hc with hc | hc
        · exact hc
        · exact absurd (Int.ofNat_inj.mp hc).symm hij
      · right
        have hk : toImGuiID (PoolObject.Id obj) ≠ toImGuiID id := by
          intro he
          rw [he, hf] at hc
          omega
        rw [GetInt_SetInt_other _ _ _ _ _ h.sorted hk]
        exact hc

theorem PoolInv_reset {T : Type} [PoolObject T] (p : ImObjectPool T) (h : PoolInv p) :
    PoolInv (ObjectPoolReset p) := by
  unfold ObjectPoolReset
  split
  · refine ⟨?_, h.sorted, h.mapped, ?_, h.nodup, h.covered⟩
    · simp [h.len]
    · intro x hx
      obtain ⟨i, rfl, hi⟩ := h.free x hx
      refine ⟨i, rfl, ?_⟩
      show (List.replicate p.InUse.length false)[i]? = some false
      rw [List.getElem?_replicate, if_pos (getElem?_some_lt _ _ _ hi)]
  · exact h

/-- What `ObjectPoolFindOrCreateIndex` does on a pool that satisfies the
invariant: it returns a slot, keeps the invariant, maps `id` to the slot, leaves
the other keys, flags and objects alone, and constructs `T(id)` exactly when
`id` was unmapped. -/
theorem foc_spec {T : Type} [PoolObject T] (p : ImObjectPool T) (h : PoolInv p) (id : Int)
    (hid : isInt id) :
    ∃ (i : Nat) (p' : ImObjectPool T),
      ObjectPoolFindOrCreateIndex p id = some ((i : Int), p') ∧ PoolInv p' ∧
      p'.IdMap.GetInt (toImGuiID id) (-1) = (i : Int) ∧
      (∀ key, key ≠ toImGuiID id → p'.IdMap.GetInt key (-1) = p.IdMap.GetInt key (-1)) ∧
      p'.InUse[i]? = some true ∧
      (∀ j, j ≠ i → p'.InUse[j]? = p.InUse[j]?) ∧
      (∀ j, j ≠ i → p'.Pool[j]? = p.Pool[j]?) ∧
      (∀ x ∈ p'.FreeList, x ∈ p.FreeList) ∧
      (ObjectPoolFind p id ≠ -1 →
        ObjectPoolFind p id = (i : Int) ∧ p' = { p with InUse := p.InUse.set i true }) ∧
      (ObjectPoolFind p id = -1 →
        p'.Pool[i]? = some (PoolObject.ctor id) ∧
        ∀ key, p.IdMap.GetInt key (-1) ≠ (i : Int)) := by
  by_cases hf : ObjectPoolFind p id = -1
  · have hf' : p.IdMap.GetInt (toImGuiID id) (-1) = -1 := hf
    rcases List.eq_nil_or_concat p.FreeList with hfl | ⟨fl, x, hfl⟩
    · -- a slot is appended
      refine ⟨p.Pool.length, _, foc_grow p id hf hfl h.len, PoolInv_grow p h id hid hf' hfl,
        GetInt_SetInt_same _ _ _ _,
        fun key hk => GetInt_SetInt_other _ _ _ _ _ h.sorted hk, ?_, ?_, ?_,
        fun x hx => hx, fun hne => absurd hf hne, fun _ => ⟨?_, ?_⟩⟩
      · show ((p.InUse ++ [false]).set p.Pool.length true)[p.Pool.length]? = some true
        exact List.getElem?_set_self (by simp [h.len])
      · intro j hj
        show ((p.InUse ++ [false]).set p.Pool.length true)[j]? = p.InUse[j]?
        rw [List.getElem?_set_ne (Ne.symm hj)]
        by_cases hlt : j < p.InUse.length
        · exact List.getElem?_append_left hlt
        · rw [List.getElem?_eq_none (by simp; have := h.len; omega),
            List.getElem?_eq_none (by omega)]
      · intro j hj
        show (p.Pool ++ [PoolObject.ctor id])[j]? = p.Pool[j]?
        by_cases hlt : j < p.Pool.length
        · exact List.getElem?_append_left hlt
        · rw [List.getElem?_eq_none (by simp; omega), List.getElem?_eq_none (by omega)]
      · exact List.getElem?_concat_length _ _
      · intro key hkey
        have hne : p.IdMap.GetInt key (-1) ≠ -1 := by rw [hkey]; omega
        obtain ⟨i, obj, h1, h2, _⟩ := h.mapped key hne
        have := getElem?_some_lt _ _ _ h2
        rw [hkey] at h1
        omega
    · -- the last free slot is reused
      rw [List.concat_eq_append] at hfl
      have hxmem : x ∈ p.FreeList := by rw [hfl]; simp
      obtain ⟨j, rfl, hj⟩ := h.free x hxmem
      have hjU := getElem?_some_lt _ _ _ hj
      have hjP : j < p.Pool.length := by rw [h.len]; exact hjU
      refine ⟨j, _, foc_reuse p id fl j hf hfl hjP hjU, PoolInv_reuse p h id hid hf' fl j hfl hjP,
        GetInt_SetInt_same _ _ _ _,
        fun key hk => GetInt_SetInt_other _ _ _ _ _ h.sorted hk, ?_, ?_, ?_,
        ?_, fun hne => absurd hf hne, fun _ => ⟨?_, ?_⟩⟩
      · exact List.getElem?_set_self hjU
      · intro i hi
        exact List.getElem?_set_ne (Ne.symm hi)
      · intro i hi
        exact List.getElem?_set_ne (Ne.symm hi)
      · intro y hy
        change y ∈ fl at hy
        rw [hfl]
        simp [hy]
      · exact List.getElem?_set_self hjP
      · intro key hkey
        have hne : p.IdMap.GetInt key (-1) ≠ -1 := by rw [hkey]; omega
        obtain ⟨i, obj, h1, _, _, _, h5⟩ := h.mapped key hne
        rw [hkey] at h1
        rw [← h1] at h5
        exact h5 hxmem
  · -- the id is mapped
    obtain ⟨i, obj, h1, h2, h3, h4, h5⟩ := h.mapped (toImGuiID id) hf
    have hiU : i < p.InUse.length := by
      rw [← h.len]
      exact getElem?_some_lt _ _ _ h2
    refine ⟨i, _, foc_mapped p id i h1 hiU, PoolInv_flag p h i h5, h1, fun key _ => rfl, ?_, ?_,
      fun j _ => rfl, fun x hx => hx, fun _ => ⟨h1, rfl⟩, fun he => absurd he hf⟩
    · exact List.getElem?_set_self hiU
    · intro j hj
      exact List.getElem?_set_ne (Ne.symm hj)

/-! ## `ObjectPoolUpdate` on a pool that satisfies the invariant -/

theorem UpdRel_refl {T : Type} (p : ImObjectPool T) : UpdRel p p :=
  ⟨rfl, rfl, fun _ => Or.inl rfl, fun _ _ h _ => h, fun _ h => h, fun _ h => Or.inl h,
    fun _ _ => rfl⟩

theorem UpdRel_trans {T : Type} {p q r : ImObjectPool T} (h1 : UpdRel p q) (h2 : UpdRel q r) :
    UpdRel p r := by
  refine ⟨h2.inUse.trans h1.inUse, h2.poolLen.trans h1.poolLen, ?_, ?_, ?_, ?_, ?_⟩
  · intro key
    rcases h2.getInt key with h | h
    · rcases h1.getInt key with h' | h'
      · exact Or.inl (h.trans h')
      · exact Or.inr (h.trans h')
    · exact Or.inr h
  · intro key j hk hj
    have hq := h1.kept key j hk hj
    exact h2.kept key j hq (by rw [h1.inUse]; exact hj)
  · intro x hx
    exact h2.freeMono x (h1.freeMono x hx)
  · intro x hx
    rcases h2.freeNew x hx with h | ⟨j, hj, hu⟩
    · exact h1.freeNew x h
    · exact Or.inr ⟨j, hj, by rw [← h1.inUse]; exact hu⟩
  · intro j hj
    rw [h2.poolKept j (by rw [h1.inUse]; exact hj), h1.poolKept j hj]

/-- The loop body evicts slot `i` when the slot is unflagged and mapped by the
key of the object it holds. -/
theorem updateStep_evict {T : Type} [PoolObject T] (p : ImObjectPool T) (i : Nat) (obj : T)
    (ho : p.Pool[i]? = some obj) (hu : p.InUse[i]? = some false)
    (hk : p.IdMap.GetInt (toImGuiID (PoolObject.Id obj)) (-1) = (i : Int)) :
    ObjectPoolUpdateStep p i =
      some { p with
        IdMap := p.IdMap.SetInt (toImGuiID (PoolObject.Id obj)) (-1)
        FreeList := p.FreeList ++ [(i : Int)]
        Pool := p.Pool.set i (PoolObject.dtor obj) } := by
  simp [ObjectPoolUpdateStep, ho, hu, hk]

/-- The loop body leaves the pool as it is when slot `i` is flagged or is not
mapped by the key of the object it holds. -/
theorem updateStep_keep {T : Type} [PoolObject T] (p : ImObjectPool T) (i : Nat) (obj : T)
    (used : Bool) (ho : p.Pool[i]? = some obj) (hu : p.InUse[i]? = some used)
    (hk : used = true ∨ p.IdMap.GetInt (toImGuiID (PoolObject.Id obj)) (-1) ≠ (i : Int)) :
    ObjectPoolUpdateStep p i = some p := by
  rcases hk with hk | hk
  · subst hk
    simp [ObjectPoolUpdateStep, ho, hu]
  · simp [ObjectPoolUpdateStep, ho, hu, hk]

theorem PoolInv_evict {T : Type} [PoolObject T] (p : ImObjectPool T) (h : PoolInv p) (i : Nat)
    (obj : T) (ho : p.Pool[i]? = some obj) (hu : p.InUse[i]? = some false)
    (hk : p.IdMap.GetInt (toImGuiID (PoolObject.Id obj)) (-1) = (i : Int)) :
    PoolInv { p with
      IdMap := p.IdMap.SetInt (toImGuiID (PoolObject.Id obj)) (-1)
      FreeList := p.FreeList ++ [(i : Int)]
      Pool := p.Pool.set i (PoolObject.dtor obj) } := by
  have hifree : (i : Int) ∉ p.FreeList := by
    have hne : p.IdMap.GetInt (toImGuiID (PoolObject.Id obj)) (-1) ≠ -1 := by rw [hk]; omega
    obtain ⟨i', _, h1, _, _, _, h5⟩ := h.mapped _ hne
    rw [hk] at h1
    rw [h1]
    exact h5
  refine ⟨?_, Sorted_SetInt _ _ _ h.sorted, ?_, ?_, ?_, ?_⟩
  · show (p.Pool.set i (PoolObject.dtor obj)).length = p.InUse.length
    rw [List.length_set]
    exact h.len
  · intro key hne
    show ∃ (j : Nat) (o : T),
      (p.IdMap.SetInt (toImGuiID (PoolObject.Id obj)) (-1)).GetInt key (-1) = (j : Int) ∧
      (p.Pool.set i (PoolObject.dtor obj))[j]? = some o ∧ isInt (PoolObject.Id o) ∧
      toImGuiID (PoolObject.Id o) = key ∧ (j : Int) ∉ p.FreeList ++ [(i : Int)]
    change (p.IdMap.SetInt (toImGuiID (PoolObject.Id obj)) (-1)).GetInt key (-1) ≠ -1 at hne
    by_cases hkey : key = toImGuiID (PoolObject.Id obj)
    · subst hkey
      rw [GetInt_SetInt_same] at hne
      exact absurd rfl hne
    · rw [GetInt_SetInt_other _ _ _ _ _ h.sorted hkey] at hne ⊢
      obtain ⟨j, o, h1, h2, h3, h4, h5⟩ := h.mapped key hne
      have hij : i ≠ j := by
        rintro rfl
        rw [ho] at h2
        injection h2 with h2
        subst h2
        exact hkey h4.symm
      refine ⟨j, o, h1, ?_, h3, h4, ?_⟩
      · rw [List.getElem?_set_ne hij]
        exact h2
      · simp only [List.mem_append, List.mem_singleton, not_or]
        exact ⟨h5, fun he => hij (Int.ofNat_inj.mp he).symm⟩
  · intro x hx
    change x ∈ p.FreeList ++ [(i : Int)] at hx
    simp only [List.mem_append, List.mem_singleton] at hx
    rcases hx with hx | hx
    · exact h.free x hx
    · exact ⟨i, hx, hu⟩
  · show (p.FreeList ++ [(i : Int)]).Nodup
    rw [List.nodup_append]
    refine ⟨h.nodup, List.nodup_singleton _, ?_⟩
    intro x hx hx'
    simp only [List.mem_singleton] at hx'
    subst hx'
    exact hifree hx
  · intro j o hobj
    change (p.Pool.set i (PoolObject.dtor obj))[j]? = some o at hobj
    show (j : Int) ∈ p.FreeList ++ [(i : Int)] ∨
      (p.IdMap.SetInt (toImGuiID (PoolObject.Id obj)) (-1)).GetInt
        (toImGuiID (PoolObject.Id o)) (-1) = (j : Int)
    by_cases hij : i = j
    · subst hij
      left
      simp
    · rw [List.getElem?_set_ne hij] at hobj
      rcases h.covered j o hobj with hc | hc
      · left
        simp [hc]
      · right
        have hkey : toImGuiID (PoolObject.Id o) ≠ toImGuiID (PoolObject.Id obj) := by
          intro he
          rw [he, hk] at hc
          exact hij (Int.ofNat_inj.mp hc)
        rw [GetInt_SetInt_other _ _ _ _ _ h.sorted hkey]
        exact hc

theorem UpdRel_evict {T : Type} [PoolObject T] (p : ImObjectPool T) (h : PoolInv p) (i : Nat)
    (obj : T) (hu : p.InUse[i]? = some false)
    (hk : p.IdMap.GetInt (toImGuiID (PoolObject.Id obj)) (-1) = (i : Int)) :
    UpdRel p { p with
      IdMap := p.IdMap.SetInt (toImGuiID (PoolObject.Id obj)) (-1)
      FreeList := p.FreeList ++ [(i : Int)]
      Pool := p.Pool.set i (PoolObject.dtor obj) } := by
  refine ⟨rfl, ?_, ?_, ?_, ?_, ?_, ?_⟩
  · exact List.length_set _ _ _
  · intro key
    by_cases hkey : key = toImGuiID (PoolObject.Id obj)
    · right
      subst hkey
      exact GetInt_SetInt_same _ _ _ _
    · left
      exact GetInt_SetInt_other _ _ _ _ _ h.sorted hkey
  · intro key j hj hju
    have hkey : key ≠ toImGuiID (PoolObject.Id obj) := by
      rintro rfl
      rw [hk] at hj
      have hij := Int.ofNat_inj.mp hj
      subst hij
      rw [hu] at hju
      cases hju
    show (p.IdMap.SetInt (toImGuiID (PoolObject.Id obj)) (-1)).GetInt key (-1) = (j : Int)
    rw [GetInt_SetInt_other _ _ _ _ _ h.sorted hkey]
    exact hj
  · intro x hx
    show x ∈ p.FreeList ++ [(i : Int)]
    simp [hx]
  · intro x hx
    change x ∈ p.FreeList ++ [(i : Int)] at hx
    simp only [List.mem_append, List.mem_singleton] at hx
    rcases hx with hx | hx
    · exact Or.inl hx
    · exact Or.inr ⟨i, hx, hu⟩
  · intro j hj
    have hij : i ≠ j := by
      rintro rfl
      rw [hu] at hj
      cases hj
    exact List.getElem?_set_ne hij

/-- One turn of the loop of `ObjectPoolUpdate` at a valid slot `i`: it completes,
keeps the invariant, touches only the key mapped to `i`, and evicts that key
when the slot is unflagged. -/
theorem updateStep_spec {T : Type} [PoolObject T] (p : ImObjectPool T) (h : PoolInv p) (i : Nat)
    (hi : i < p.InUse.length) :
    ∃ p' : ImObjectPool T, ObjectPoolUpdateStep p i = some p' ∧ PoolInv p' ∧ UpdRel p p' ∧
      (∀ key, p.IdMap.GetInt key (-1) ≠ (i : Int) →
        p'.IdMap.GetInt key (-1) = p.IdMap.GetInt key (-1)) ∧
      (∀ key, p.IdMap.GetInt key (-1) = (i : Int) → p.InUse[i]? = some false →
        p'.IdMap.GetInt key (-1) = -1 ∧ (i : Int) ∈ p'.FreeList) := by
  have hiP : i < p.Pool.length := by rw [h.len]; exact hi
  have ho : p.Pool[i]? = some p.Pool[i] := List.getElem?_eq_getElem hiP
  have hu : p.InUse[i]? = some p.InUse[i] := List.getElem?_eq_getElem hi
  generalize p.Pool[i] = obj at ho
  generalize p.InUse[i] = used at hu
  -- a key mapped to slot `i` is the key of the object in slot `i`
  have hkeyOf : ∀ key, p.IdMap.GetInt key (-1) = (i : Int) →
      key = toImGuiID (PoolObject.Id obj) := by
    intro key hkey
    have hne : p.IdMap.GetInt key (-1) ≠ -1 := by rw [hkey]; omega
    obtain ⟨j, o, h1, h2, _, h4, _⟩ := h.mapped key hne
    rw [hkey] at h1
    have hij := Int.ofNat_inj.mp h1
    subst hij
    rw [ho] at h2
    injection h2 with h2
    subst h2
    exact h4.symm
  by_cases hc : used = false ∧ p.IdMap.GetInt (toImGuiID (PoolObject.Id obj)) (-1) = (i : Int)
  · obtain ⟨hused, hk⟩ := hc
    subst hused
    refine ⟨_, updateStep_evict p i obj ho hu hk, PoolInv_evict p h i obj ho hu hk,
      UpdRel_evict p h i obj hu hk, ?_, ?_⟩
    · intro key hkey
      have hne : key ≠ toImGuiID (PoolObject.Id obj) := by
        rintro rfl
        exact hkey hk
      exact GetInt_SetInt_other _ _ _ _ _ h.sorted hne
    · intro key hkey _
      have := hkeyOf key hkey
      subst this
      refine ⟨GetInt_SetInt_same _ _ _ _, ?_⟩
      show (i : Int) ∈ p.FreeList ++ [(i : Int)]
      simp
  · have hk : used = true ∨ p.IdMap.GetInt (toImGuiID (PoolObject.Id obj)) (-1) ≠ (i : Int) := by
      cases used
      · right
        intro he
        exact hc ⟨rfl, he⟩
      · left; rfl
    refine ⟨p, updateStep_keep p i obj used ho hu hk, h, UpdRel_refl p, fun _ _ => rfl, ?_⟩
    intro key hkey hfalse
    exfalso
    have := hkeyOf key hkey
    subst this
    rw [hu] at hfalse
    injection hfalse with hfalse
    exact hc ⟨hfalse, hkey⟩

/-- The loop of `ObjectPoolUpdate` over valid slots: it completes, keeps the
invariant, and evicts every key mapped to an unflagged slot among them. -/
theorem updateLoop_spec {T : Type} [PoolObject T] (l : List Nat) (p : ImObjectPool T)
    (h : PoolInv p) (hl : ∀ i ∈ l, i < p.InUse.length) :
    ∃ p' : ImObjectPool T, ObjectPoolUpdateLoop p l = some p' ∧ PoolInv p' ∧ UpdRel p p' ∧
      (∀ (key : Nat) (i : Nat), i ∈ l → p.IdMap.GetInt key (-1) = (i : Int) →
        p.InUse[i]? = some false →
        p'.IdMap.GetInt key (-1) = -1 ∧ (i : Int) ∈ p'.FreeList) := by
  induction l generalizing p with
  | nil =>
    exact ⟨p, rfl, h, UpdRel_refl p, fun _ _ hi => absurd hi (List.not_mem_nil _)⟩
  | cons j rest ih =>
    obtain ⟨p1, hs1, hinv1, hrel1, hother1, hev1⟩ :=
      updateStep_spec p h j (hl j (List.mem_cons_self _ _))
    have hl1 : ∀ i ∈ rest, i < p1.InUse.length := by
      intro i hi
      rw [hrel1.inUse]
      exact hl i (List.mem_cons_of_mem _ hi)
    obtain ⟨p2, hs2, hinv2, hrel2, hev2⟩ := ih p1 hinv1 hl1
    refine ⟨p2, ?_, hinv2, UpdRel_trans hrel1 hrel2, ?_⟩
    · rw [ObjectPoolUpdateLoop, hs1]
      exact hs2
    · intro key i hi hkey hfalse
      by_cases hij : i = j
      · subst hij
        obtain ⟨hg, hm⟩ := hev1 key hkey hfalse
        refine ⟨?_, hrel2.freeMono _ hm⟩
        rcases hrel2.getInt key with hg2 | hg2
        · rw [hg2]; exact hg
        · exact hg2
      · have hi' : i ∈ rest := by
          rcases List.mem_cons.mp hi with hi | hi
          · exact absurd hi hij
          · exact hi
        have hkey1 : p1.IdMap.GetInt key (-1) = (i : Int) := by
          rw [hother1 key (by rw [hkey]; intro he; exact hij (Int.ofNat_inj.mp he))]
          exact hkey
        exact hev2 key i hi' hkey1 (by rw [hrel1.inUse]; exact hfalse)

/-- Running `ObjectPoolUpdate` on a pool that satisfies the invariant: it completes,
keeps the invariant, and evicts every key mapped to an unflagged slot. -/
theorem update_spec {T : Type} [PoolObject T] (p : ImObjectPool T) (h : PoolInv p) :
    ∃ p' : ImObjectPool T, ObjectPoolUpdate p = some p' ∧ PoolInv p' ∧ UpdRel p p' ∧
      (∀ (key : Nat) (i : Nat), p.IdMap.GetInt key (-1) = (i : Int) →
        p.InUse[i]? = some false →
        p'.IdMap.GetInt key (-1) = -1 ∧ (i : Int) ∈ p'.FreeList) := by
  obtain ⟨p', hs, hinv, hrel, hev⟩ :=
    updateLoop_spec (List.range p.InUse.length) p h (fun i hi => List.mem_range.mp hi)
  refine ⟨p', hs, hinv, hrel, ?_⟩
  intro key i hkey hfalse
  exact hev key i (List.mem_range.mpr (getElem?_some_lt _ _ _ hfalse)) hkey hfalse

/-! ## Call sequences keep the invariant -/

theorem runOps_cons {T : Type} [PoolObject T] (p q : ImObjectPool T) (op : PoolOp)
    (rest : List PoolOp) (h : applyOp p op = some q) :
    runOps p (op :: rest) = runOps q rest := by
  rw [runOps, h]

theorem runOps_append {T : Type} [PoolObject T] (p q : ImObjectPool T) (a b : List PoolOp)
    (h : runOps p a = some q) : runOps p (a ++ b) = runOps q b := by
  induction a generalizing p with
  | nil =>
    injection h with h
    subst h
    rfl
  | cons op rest ih =>
    rw [runOps] at h
    cases hop : applyOp p op with
    | none => rw [hop] at h; cases h
    | some p1 =>
      rw [hop] at h
      rw [List.cons_append, runOps_cons p p1 op _ hop]
      exact ih p1 h

theorem validOps_cons (op : PoolOp) (rest : List PoolOp) :
    validOps (op :: rest) = true ↔ validOp op = true ∧ validOps rest = true := by
  simp [validOps]

theorem validOps_append (a b : List PoolOp) :
    validOps (a ++ b) = true ↔ validOps a = true ∧ validOps b = true := by
  simp [validOps]

theorem validOp_findOrCreate (id : Int) :
    validOp (PoolOp.FindOrCreateIndex id) = true ↔ isInt id := by
  simp [validOp]

theorem validOps_decls (d : List Int) :
    validOps (d.map PoolOp.FindOrCreateIndex) = true ↔ ∀ id ∈ d, isInt id := by
  simp [validOps, validOp]

theorem validOps_frameOps (d : List Int) :
    validOps (frameOps d) = true ↔ ∀ id ∈ d, isInt id := by
  simp [validOps, validOp, frameOps]

theorem isInt_of_declared (ops : List PoolOp) (hv : validOps ops = true) (id : Int)
    (hid : id ∈ declaredIds ops) : isInt id := by
  induction ops with
  | nil => cases hid
  | cons op rest ih =>
    obtain ⟨h1, h2⟩ := (validOps_cons op rest).mp hv
    cases op with
    | Reset => exact ih h2 hid
    | Update => exact ih h2 hid
    | FindOrCreateIndex x =>
      simp only [declaredIds, List.mem_cons] at hid
      rcases hid with hid | hid
      · subst hid
        exact (validOp_findOrCreate _).mp h1
      · exact ih h2 hid

/-- A valid call on a pool that satisfies the invariant completes and keeps the
invariant. -/
theorem applyOp_inv {T : Type} [PoolObject T] (p : ImObjectPool T) (h : PoolInv p) (op : PoolOp)
    (hv : validOp op = true) : ∃ q : ImObjectPool T, applyOp p op = some q ∧ PoolInv q := by
  cases op with
  | Reset => exact ⟨_, rfl, PoolInv_reset p h⟩
  | Update =>
    obtain ⟨q, hs, hinv, _⟩ := update_spec p h
    exact ⟨q, hs, hinv⟩
  | FindOrCreateIndex id =>
    obtain ⟨i, q, hs, hinv, _⟩ := foc_spec p h id ((validOp_findOrCreate id).mp hv)
    refine ⟨q, ?_, hinv⟩
    simp [applyOp, hs]

/-- A valid sequence of calls on a pool that satisfies the invariant completes
and keeps the invariant. -/
theorem runOps_inv {T : Type} [PoolObject T] (ops : List PoolOp) (p : ImObjectPool T)
    (h : PoolInv p) (hv : validOps ops = true) :
    ∃ q : ImObjectPool T, runOps p ops = some q ∧ PoolInv q := by
  induction ops generalizing p with
  | nil => exact ⟨p, rfl, h⟩
  | cons op rest ih =>
    obtain ⟨h1, h2⟩ := (validOps_cons op rest).mp hv
    obtain ⟨p1, hs1, hinv1⟩ := applyOp_inv p h op h1
    obtain ⟨q, hs, hinv⟩ := ih p1 hinv1 h2
    exact ⟨q, by rw [runOps_cons p p1 op rest hs1]; exact hs, hinv⟩

/-- Every reachable pool satisfies the invariant. -/
theorem Reachable_inv {T : Type} [PoolObject T] (p : ImObjectPool T) (h : Reachable p) :
    PoolInv p := by
  obtain ⟨ops, hv, hrun⟩ := h
  obtain ⟨q, hs, hinv⟩ :=
    runOps_inv ops (ImObjectPool.empty : ImObjectPool T) PoolInv_empty hv
  rw [hrun] at hs
  injection hs with hs
  subst hs
  exact hinv

/-- Reachability is closed under valid call sequences. -/
theorem Reachable_runOps {T : Type} [PoolObject T] (p q : ImObjectPool T) (h : Reachable p)
    (ops : List PoolOp) (hv : validOps ops = true) (hrun : runOps p ops = some q) :
    Reachable q := by
  obtain ⟨ops0, hv0, hrun0⟩ := h
  refine ⟨ops0 ++ ops, (validOps_append _ _).mpr ⟨hv0, hv⟩, ?_⟩
  rw [runOps_append _ p ops0 ops hrun0]
  exact hrun

/-- Two `int` ids that look up the same slot are the same id. -/
theorem find_inj {T : Type} [PoolObject T] (p : ImObjectPool T) (h : PoolInv p) (a b : Int)
    (ha : isInt a) (hb : isInt b) (hab : ObjectPoolFind p a = ObjectPoolFind p b)
    (hne : ObjectPoolFind p a ≠ -1) : a = b := by
  obtain ⟨i, obj, h1, h2, _, h4, _⟩ := h.mapped (toImGuiID a) hne
  obtain ⟨j, obj', h1', h2', _, h4', _⟩ := h.mapped (toImGuiID b) (by
    change ObjectPoolFind p b ≠ -1
    rw [← hab]; exact hne)
  have hij : i = j := by
    have : (i : Int) = (j : Int) := by
      rw [← h1, ← h1']
      exact hab
    exact Int.ofNat_inj.mp this
  subst hij
  rw [h2] at h2'
  injection h2' with h2'
  subst h2'
  exact toImGuiID_inj ha hb (h4.symm.trans h4')

/-! ## Claims about `ObjectPoolFindOrCreateIndex` -/

/-- C1. For every pool and every id mapped to a slot `i` (`ObjectPoolFind` gives
`i`, `i` is not `-1`, and `i` is in bounds of `InUse`, the one vector the call
indexes), `ObjectPoolFindOrCreateIndex` returns `i`, sets `InUse[i]`, and leaves
everything else as it was: the pool after the call is the pool before it with
that one flag written, so `Pool` (no object is constructed), `FreeList`, `IdMap`,
both lengths and every other flag are unchanged. -/
theorem C1_findOrCreate_mapped_frame {T : Type} [PoolObject T] (p : ImObjectPool T) (id i : Int)
    (hf : ObjectPoolFind p id = i) (hne : i ≠ -1) (hlo : 0 ≤ i)
    (hhi : i < (p.InUse.length : Int)) :
    ∃ p' : ImObjectPool T,
      ObjectPoolFindOrCreateIndex p id = some (i, p') ∧
      p' = { p with InUse := p.InUse.set i.toNat true } ∧
      p'.InUse[i.toNat]? = some true ∧
      p'.Pool = p.Pool ∧ p'.FreeList = p.FreeList ∧ p'.IdMap = p.IdMap ∧
      p'.Pool.length = p.Pool.length ∧ p'.InUse.length = p.InUse.length ∧
      (∀ j : Nat, j ≠ i.toNat → p'.InUse[j]? = p.InUse[j]?) := by
  have _ := hne
  obtain ⟨n, rfl⟩ := Int.eq_ofNat_of_zero_le hlo
  have hn : n < p.InUse.length := by omega
  refine ⟨_, foc_mapped p id n hf hn, ?_, ?_, rfl, rfl, rfl, rfl, ?_, ?_⟩
  · simp
  · simp only [Int.toNat_ofNat]
    exact List.getElem?_set_self hn
  · exact List.length_set _ _ _
  · intro j hj
    simp only [Int.toNat_ofNat] at hj ⊢
    exact List.getElem?_set_ne (Ne.symm hj)

/-- C1 at the pool `nodesAfterReset` and the id 5, which is mapped to slot 0. -/
theorem C1_findOrCreate_mapped_frame_witness :
    ObjectPoolFind nodesAfterReset 5 = 0 ∧
    ∃ p' : ImObjectPool ImNodeData,
      ObjectPoolFindOrCreateIndex nodesAfterReset 5 = some (0, p') ∧
      p' = { nodesAfterReset with InUse := nodesAfterReset.InUse.set (0 : Int).toNat true } ∧
      p'.InUse[(0 : Int).toNat]? = some true ∧
      p'.Pool = nodesAfterReset.Pool ∧ p'.FreeList = nodesAfterReset.FreeList ∧
      p'.IdMap = nodesAfterReset.IdMap ∧
      p'.Pool.length = nodesAfterReset.Pool.length ∧
      p'.InUse.length = nodesAfterReset.InUse.length ∧
      (∀ j : Nat, j ≠ (0 : Int).toNat → p'.InUse[j]? = nodesAfterReset.InUse[j]?) :=
  ⟨by decide,
    C1_findOrCreate_mapped_frame nodesAfterReset 5 0 (by decide) (by decide) (by decide)
      (by decide)⟩

/-- C2, as stated, fails: it promises a returned slot on every pool.  On
`pinsUnequalSizes` the id 7 is unmapped and the free list is empty, yet the call
stops at `IM_ASSERT(objects.Pool.size() == objects.InUse.size())` and returns
nothing (and `InUse.resize(Pool.size() + 1)` would not add a slot to `InUse`,
which already has that size).  On `pinsDanglingFree` the last free entry is no
slot of the pool, and the call returns nothing either. -/
theorem C2_findOrCreate_unmapped_counterexample :
    (ObjectPoolFind pinsUnequalSizes 7 = -1 ∧ pinsUnequalSizes.FreeList = [] ∧
      ¬ ∃ (r : Int) (p' : ImObjectPool ImPinData),
        ObjectPoolFindOrCreateIndex pinsUnequalSizes 7 = some (r, p') ∧
        r = (pinsUnequalSizes.Pool.length : Int) ∧
        p'.Pool.length = pinsUnequalSizes.Pool.length + 1 ∧
        p'.InUse.length = pinsUnequalSizes.InUse.length + 1) ∧
    (ObjectPoolFind pinsDanglingFree 7 = -1 ∧ pinsDanglingFree.FreeList.getLast? = some 5 ∧
      ¬ ∃ (r : Int) (p' : ImObjectPool ImPinData),
        ObjectPoolFindOrCreateIndex pinsDanglingFree 7 = some (r, p') ∧ r = 5) := by
  have h1 : ObjectPoolFindOrCreateIndex pinsUnequalSizes 7 = none := by decide
  have h2 : ObjectPoolFindOrCreateIndex pinsDanglingFree 7 = none := by decide
  refine ⟨⟨by decide, rfl, ?_⟩, ⟨by decide, rfl, ?_⟩⟩
  · rintro ⟨r, p', h, _⟩
    rw [h1] at h
    cases h
  · rintro ⟨r, p', h, _⟩
    rw [h2] at h
    cases h

/-- C2, amended.  For every pool and every unmapped id: when the free list is
non-empty and its last element is a valid index of `Pool` and of `InUse`, the
call returns that element, removes exactly it from the free list and leaves both
lengths alone; when the free list is empty and `Pool` and `InUse` have equal
length (the `IM_ASSERT` of the function), the call returns the old `Pool` length
and grows `Pool` and `InUse` by one slot each. -/
theorem C2_findOrCreate_unmapped {T : Type} [PoolObject T] (p : ImObjectPool T) (id : Int)
    (hf : ObjectPoolFind p id = -1)
    (hlen : p.FreeList = [] → p.Pool.length = p.InUse.length)
    (hlast : ∀ x : Int, p.FreeList.getLast? = some x →
      0 ≤ x ∧ x < (p.Pool.length : Int) ∧ x < (p.InUse.length : Int)) :
    ∃ (r : Int) (p' : ImObjectPool T),
      ObjectPoolFindOrCreateIndex p id = some (r, p') ∧
      (∀ x : Int, p.FreeList.getLast? = some x →
        r = x ∧ p'.FreeList = p.FreeList.dropLast ∧ p.FreeList = p'.FreeList ++ [x] ∧
        p'.Pool.length = p.Pool.length ∧ p'.InUse.length = p.InUse.length) ∧
      (p.FreeList = [] →
        r = (p.Pool.length : Int) ∧ p'.FreeList = [] ∧
        p'.Pool.length = p.Pool.length + 1 ∧ p'.InUse.length = p.InUse.length + 1) := by
  rcases List.eq_nil_or_concat p.FreeList with hfl | ⟨fl, x, hfl⟩
  · refine ⟨_, _, foc_grow p id hf hfl (hlen hfl), ?_, ?_⟩
    · intro x hx
      rw [hfl] at hx
      cases hx
    · intro _
      refine ⟨rfl, hfl, ?_, ?_⟩
      · simp
      · simp
  · rw [List.concat_eq_append] at hfl
    have hx : p.FreeList.getLast? = some x := by rw [hfl]; exact List.getLast?_concat _
    obtain ⟨h0, hP, hU⟩ := hlast x hx
    obtain ⟨j, rfl⟩ := Int.eq_ofNat_of_zero_le h0
    refine ⟨_, _, foc_reuse p id fl j hf hfl (by omega) (by omega), ?_, ?_⟩
    · intro y hy
      rw [hx] at hy
      injection hy with hy
      subst hy
      refine ⟨rfl, ?_, hfl, ?_, ?_⟩
      · rw [hfl, List.dropLast_concat]
      · exact List.length_set _ _ _
      · exact List.length_set _ _ _
    · intro hnil
      rw [hnil] at hfl
      simp at hfl

/-- C2, amended, at `pinsOneFree` and the unmapped id 9: slot 1 is reused. -/
theorem C2_findOrCreate_unmapped_witness :
    ObjectPoolFind pinsOneFree 9 = -1 ∧
    ∃ (r : Int) (p' : ImObjectPool ImPinData),
      ObjectPoolFindOrCreateIndex pinsOneFree 9 = some (r, p') ∧
      (∀ x : Int, pinsOneFree.FreeList.getLast? = some x →
        r = x ∧ p'.FreeList = pinsOneFree.FreeList.dropLast ∧
        pinsOneFree.FreeList = p'.FreeList ++ [x] ∧
        p'.Pool.length = pinsOneFree.Pool.length ∧
        p'.InUse.length = pinsOneFree.InUse.length) ∧
      (pinsOneFree.FreeList = [] →
        r = (pinsOneFree.Pool.length : Int) ∧ p'.FreeList = [] ∧
        p'.Pool.length = pinsOneFree.Pool.length + 1 ∧
        p'.InUse.length = pinsOneFree.InUse.length + 1) :=
  ⟨by decide,
    C2_findOrCreate_unmapped pinsOneFree 9 (by decide) (by decide) (by
      intro x hx
      have h1 : x = 1 := by
        have : pinsOneFree.FreeList.getLast? = some 1 := rfl
        rw [this] at hx
        injection hx with hx
        exact hx.symm
      subst h1
      decide)⟩

/-- C3. In every reachable pool and for every `int` id, the call
`ObjectPoolFindOrCreateIndex(id)` returns a slot `r` (and
`ObjectPoolFindOrCreateObject(id)` the object `Pool[r]`) such that afterwards
`ObjectPoolFind(id)` is `r`, `r` is a valid index of `Pool`, `InUse[r]` is set
and the object in `Pool[r]` has `Id = id`; when `id` was unmapped before the
call, that object is the freshly constructed `T(id)`. -/
theorem C3_findOrCreate_post {T : Type} [PoolObject T] (p : ImObjectPool T) (hr : Reachable p)
    (id : Int) (hid : isInt id) :
    ∃ (r : Int) (p' : ImObjectPool T) (obj : T),
      ObjectPoolFindOrCreateIndex p id = some (r, p') ∧
      ObjectPoolFindOrCreateObject p id = some (obj, p') ∧
      ObjectPoolFind p' id = r ∧ 0 ≤ r ∧ r < (p'.Pool.length : Int) ∧
      p'.InUse[r.toNat]? = some true ∧
      p'.Pool[r.toNat]? = some obj ∧ PoolObject.Id obj = id ∧
      (ObjectPoolFind p id = -1 → obj = PoolObject.ctor id) := by
  have hinv := Reachable_inv p hr
  obtain ⟨i, p', hs, hinv', hget, _, hflag, _, _, _, _, hnew⟩ := foc_spec p hinv id hid
  have hne : p'.IdMap.GetInt (toImGuiID id) (-1) ≠ -1 := by rw [hget]; omega
  obtain ⟨j, obj, h1, h2, h3, h4, _⟩ := hinv'.mapped (toImGuiID id) hne
  have hij : j = i := by
    rw [hget] at h1
    exact (Int.ofNat_inj.mp h1).symm
  subst hij
  have hlt := getElem?_some_lt _ _ _ h2
  refine ⟨(j : Int), p', obj, hs, ?_, hget, by omega, by omega, ?_, ?_,
    toImGuiID_inj h3 hid h4, ?_⟩
  · simp only [ObjectPoolFindOrCreateObject, hs, slotIndex_natCast j _ hlt, h2]
  · simp only [Int.toNat_ofNat]
    exact hflag
  · simp only [Int.toNat_ofNat]
    exact h2
  · intro hf
    have := (hnew hf).1
    rw [h2] at this
    injection this

/-- C3 at the reachable pool `nodesAfterReset` and the unmapped id 9. -/
theorem C3_findOrCreate_post_witness :
    Reachable nodesAfterReset ∧ isInt 9 ∧
    ∃ (r : Int) (p' : ImObjectPool ImNodeData) (obj : ImNodeData),
      ObjectPoolFindOrCreateIndex nodesAfterReset 9 = some (r, p') ∧
      ObjectPoolFindOrCreateObject nodesAfterReset 9 = some (obj, p') ∧
      ObjectPoolFind p' 9 = r ∧ 0 ≤ r ∧ r < (p'.Pool.length : Int) ∧
      p'.InUse[r.toNat]? = some true ∧
      p'.Pool[r.toNat]? = some obj ∧ PoolObject.Id obj = 9 ∧
      (ObjectPoolFind nodesAfterReset 9 = -1 → obj = PoolObject.ctor 9) :=
  ⟨⟨[PoolOp.FindOrCreateIndex 5, PoolOp.Reset], by decide, by decide⟩, by decide,
    C3_findOrCreate_post nodesAfterReset
      ⟨[PoolOp.FindOrCreateIndex 5, PoolOp.Reset], by decide, by decide⟩ 9 (by decide)⟩

/-- Whatever the pool, a completed `ObjectPoolFindOrCreateIndex(id)` returns a
valid index of `InUse`, leaves `id` mapped to it and its flag set. -/
theorem foc_result {T : Type} [PoolObject T] (p p1 : ImObjectPool T) (id r : Int)
    (h : ObjectPoolFindOrCreateIndex p id = some (r, p1)) :
    ∃ i : Nat, r = (i : Int) ∧ i < p1.InUse.length ∧ ObjectPoolFind p1 id = (i : Int) ∧
      p1.InUse.set i true = p1.InUse := by
  by_cases hf : ObjectPoolFind p id = -1
  · have hf' : p.IdMap.GetInt (toImGuiID id) (-1) = -1 := hf
    rcases List.eq_nil_or_concat p.FreeList with hfl | ⟨fl, x, hfl⟩
    · by_cases hlen : p.Pool.length = p.InUse.length
      · rw [foc_grow p id hf hfl hlen] at h
        injection h with h
        injection h with h1 h2
        subst h1 h2
        refine ⟨p.Pool.length, rfl, ?_, GetInt_SetInt_same _ _ _ _, List.set_set _ _ _ _⟩
        simp [hlen]
      · simp [ObjectPoolFindOrCreateIndex, hf', hfl, hlen] at h
    · rw [List.concat_eq_append] at hfl
      by_cases hb : 0 ≤ x ∧ x < (p.Pool.length : Int)
      · by_cases hb' : x < (p.InUse.length : Int)
        · obtain ⟨j, rfl⟩ := Int.eq_ofNat_of_zero_le hb.1
          have hjP : j < p.Pool.length := by omega
          have hjU : j < p.InUse.length := by omega
          rw [foc_reuse p id fl j hf hfl hjP hjU] at h
          injection h with h
          injection h with h1 h2
          subst h1 h2
          refine ⟨j, rfl, ?_, GetInt_SetInt_same _ _ _ _, List.set_set _ _ _ _⟩
          simp [hjU]
        · have he : (fl ++ [x]).isEmpty = false := by cases fl <;> rfl
          obtain ⟨j, rfl⟩ := Int.eq_ofNat_of_zero_le hb.1
          have hjP : j < p.Pool.length := by omega
          have hn : slotIndex (j : Int) p.InUse.length = none :=
            slotIndex_eq_none _ _ (fun hc => hb' hc.2)
          simp [ObjectPoolFindOrCreateIndex, hf', hfl, he, slotIndex_natCast j _ hjP,
            flagInUse, hn] at h
      · have he : (fl ++ [x]).isEmpty = false := by cases fl <;> rfl
        simp [ObjectPoolFindOrCreateIndex, hf', hfl, he, slotIndex_eq_none x _ hb] at h
  · have hf' : ¬ p.IdMap.GetInt (toImGuiID id) (-1) = -1 := hf
    by_cases hb : 0 ≤ ObjectPoolFind p id ∧ ObjectPoolFind p id < (p.InUse.length : Int)
    · obtain ⟨j, hj⟩ := Int.eq_ofNat_of_zero_le hb.1
      have hjU : j < p.InUse.length := by omega
      rw [foc_mapped p id j hj hjU] at h
      injection h with h
      injection h with h1 h2
      subst h1 h2
      refine ⟨j, rfl, ?_, hj, List.set_set _ _ _ _⟩
      simp [hjU]
    · have hn : slotIndex (p.IdMap.GetInt (toImGuiID id) (-1)) p.InUse.length = none :=
        slotIndex_eq_none _ _ hb
      simp [ObjectPoolFindOrCreateIndex, hf', flagInUse, hn] at h

/-- C4. For every pool and every id `k`, two calls of
`ObjectPoolFindOrCreateIndex(k)` in succession have the outcome of one call: the
second call returns the slot index the first returned and leaves the pool
exactly as the first call left it (`Pool`, `InUse`, `FreeList` and `IdMap`
equal, no second object constructed).  A first call that stops at a failed
`IM_ASSERT` is not followed by a second one. -/
theorem C4_findOrCreate_idempotent {T : Type} [PoolObject T] (p : ImObjectPool T) (k : Int) :
    ((ObjectPoolFindOrCreateIndex p k).bind
        fun first => ObjectPoolFindOrCreateIndex first.2 k) =
      ObjectPoolFindOrCreateIndex p k ∧
    ∀ (r : Int) (p1 : ImObjectPool T), ObjectPoolFindOrCreateIndex p k = some (r, p1) →
      ObjectPoolFindOrCreateIndex p1 k = some (r, p1) := by
  have key : ∀ (r : Int) (p1 : ImObjectPool T),
      ObjectPoolFindOrCreateIndex p k = some (r, p1) →
      ObjectPoolFindOrCreateIndex p1 k = some (r, p1) := by
    intro r p1 h
    obtain ⟨i, rfl, hi, hfind, hset⟩ := foc_result p p1 k r h
    rw [foc_mapped p1 k i hfind hi, hset]
  refine ⟨?_, key⟩
  cases h : ObjectPoolFindOrCreateIndex p k with
  | none => rfl
  | some first =>
    obtain ⟨r, p1⟩ := first
    exact key r p1 h

/-- C4 at `pinsOneFree` and the unmapped id 9: both calls return slot 1 and the
second leaves the pool of the first. -/
theorem C4_findOrCreate_idempotent_witness :
    ObjectPoolFindOrCreateIndex pinsOneFree 9 =
      some (1, { Pool := [ImPinData.ctor 7, ImPinData.ctor 9], InUse := [true, true],
                 FreeList := [], IdMap := ⟨[⟨7, 0⟩, ⟨8, -1⟩, ⟨9, 1⟩]⟩ }) ∧
    ObjectPoolFindOrCreateIndex
        ({ Pool := [ImPinData.ctor 7, ImPinData.ctor 9], InUse := [true, true],
           FreeList := [], IdMap := ⟨[⟨7, 0⟩, ⟨8, -1⟩, ⟨9, 1⟩]⟩ } : ImObjectPool ImPinData) 9 =
      some (1, { Pool := [ImPinData.ctor 7, ImPinData.ctor 9], InUse := [true, true],
                 FreeList := [], IdMap := ⟨[⟨7, 0⟩, ⟨8, -1⟩, ⟨9, 1⟩]⟩ }) :=
  ⟨by decide, (C4_findOrCreate_idempotent pinsOneFree 9).2 1 _ (by decide)⟩

/-! ## Frames -/

theorem reset_eq {T : Type} (p : ImObjectPool T) :
    ObjectPoolReset p = { p with InUse := List.replicate p.InUse.length false } := by
  unfold ObjectPoolReset
  split
  · rfl
  · rename_i h
    have hnil : p.InUse = [] := by
      cases hI : p.InUse with
      | nil => rfl
      | cons b t => rw [hI] at h; simp at h
    cases p
    simp only at hnil
    subst hnil
    rfl

theorem reset_find {T : Type} (p : ImObjectPool T) (k : Int) :
    ObjectPoolFind (ObjectPoolReset p) k = ObjectPoolFind p k := by
  rw [reset_eq]
  rfl

theorem reset_unflagged {T : Type} [PoolObject T] (p : ImObjectPool T) (h : PoolInv p) (k : Int) :
    Unflagged (ObjectPoolReset p) k := by
  by_cases hf : ObjectPoolFind p k = -1
  · left
    rw [reset_find]
    exact hf
  · right
    obtain ⟨i, obj, h1, h2, _⟩ := h.mapped (toImGuiID k) hf
    refine ⟨i, ?_, ?_⟩
    · rw [reset_find]
      exact h1
    · rw [reset_eq]
      show (List.replicate p.InUse.length false)[i]? = some false
      have hlt : i < p.InUse.length := by
        rw [← h.len]
        exact getElem?_some_lt _ _ _ h2
      rw [List.getElem?_replicate, if_pos hlt]

/-- While `k` keeps being declared before every `ObjectPoolUpdate`, its slot
does not change: along any valid call sequence in which each `ObjectPoolUpdate`
follows a declaration of `k` made after the last `ObjectPoolReset`, the lookup
of `k` stays at slot `i`. -/
theorem runOps_stable {T : Type} [PoolObject T] (k : Int) (i : Nat) (ops : List PoolOp)
    (f : Bool) (p : ImObjectPool T) (h : PoolInv p)
    (hfind : ObjectPoolFind p k = (i : Int)) (hflag : f = true → p.InUse[i]? = some true)
    (hv : validOps ops = true) (hsafe : declaredAtEveryUpdate k f ops = true) :
    ∃ q : ImObjectPool T, runOps p ops = some q ∧ PoolInv q ∧ ObjectPoolFind q k = (i : Int) ∧
      (declaredSinceReset k f ops = true → q.InUse[i]? = some true) := by
  induction ops generalizing p f with
  | nil => exact ⟨p, rfl, h, hfind, hflag⟩
  | cons op rest ih =>
    obtain ⟨hv1, hv2⟩ := (validOps_cons op rest).mp hv
    cases op with
    | Reset =>
      obtain ⟨q, hq, hinv, hfq, hflq⟩ := ih false (ObjectPoolReset p) (PoolInv_reset p h)
        (by rw [reset_find]; exact hfind) (fun hc => by cases hc) hv2 hsafe
      exact ⟨q, by rw [runOps_cons p _ PoolOp.Reset rest rfl]; exact hq, hinv, hfq, hflq⟩
    | Update =>
      simp only [declaredAtEveryUpdate, Bool.and_eq_true] at hsafe
      obtain ⟨hf, hsafe'⟩ := hsafe
      obtain ⟨p1, hs1, hinv1, hrel1, _⟩ := update_spec p h
      have hfind1 : ObjectPoolFind p1 k = (i : Int) := hrel1.kept _ i hfind (hflag hf)
      obtain ⟨q, hq, hinv, hfq, hflq⟩ := ih f p1 hinv1 hfind1
        (fun hc => by rw [hrel1.inUse]; exact hflag hc) hv2 hsafe'
      exact ⟨q, by rw [runOps_cons p p1 PoolOp.Update rest hs1]; exact hq, hinv, hfq, hflq⟩
    | FindOrCreateIndex id =>
      have hid := (validOp_findOrCreate id).mp hv1
      obtain ⟨j, p1, hs1, hinv1, hget1, hother1, hfl1, hfo1, _, _, hmapped1, _⟩ :=
        foc_spec p h id hid
      have hap : applyOp p (PoolOp.FindOrCreateIndex id) = some p1 := by
        simp [applyOp, hs1]
      have hboth : ObjectPoolFind p1 k = (i : Int) ∧
          ((f || decide (id = k)) = true → p1.InUse[i]? = some true) := by
        by_cases hkey : toImGuiID k = toImGuiID id
        · have hfid : ObjectPoolFind p id = (i : Int) := by
            unfold ObjectPoolFind at hfind ⊢
            rw [← hkey]
            exact hfind
          obtain ⟨hji, _⟩ := hmapped1 (by rw [hfid]; omega)
          have hij : j = i := by
            rw [hfid] at hji
            exact (Int.ofNat_inj.mp hji).symm
          subst hij
          refine ⟨?_, fun _ => hfl1⟩
          unfold ObjectPoolFind
          rw [hkey]
          exact hget1
        · refine ⟨?_, ?_⟩
          · unfold ObjectPoolFind at hfind ⊢
            rw [hother1 _ hkey]
            exact hfind
          · intro hc
            have hne : id ≠ k := fun he => hkey (by rw [he])
            have hf : f = true := by
              simpa [hne] using hc
            by_cases hij : i = j
            · subst hij
              exact hfl1
            · rw [hfo1 i hij]
              exact hflag hf
      obtain ⟨q, hq, hinv, hfq, hflq⟩ := ih (f || decide (id = k)) p1 hinv1 hboth.1 hboth.2
        hv2 hsafe
      exact ⟨q, by rw [runOps_cons p p1 _ rest hap]; exact hq, hinv, hfq, hflq⟩

/-- Once `k` has been declared after the last `ObjectPoolReset`, it is mapped
and its slot is flagged. -/
theorem runOps_declared {T : Type} [PoolObject T] (k : Int) (hk : isInt k) (ops : List PoolOp)
    (f : Bool) (p : ImObjectPool T) (h : PoolInv p)
    (hflag : f = true → ∃ i : Nat, ObjectPoolFind p k = (i : Int) ∧ p.InUse[i]? = some true)
    (hv : validOps ops = true) :
    ∃ q : ImObjectPool T, runOps p ops = some q ∧ PoolInv q ∧
      (declaredSinceReset k f ops = true →
        ∃ i : Nat, ObjectPoolFind q k = (i : Int) ∧ q.InUse[i]? = some true) := by
  induction ops generalizing p f with
  | nil => exact ⟨p, rfl, h, hflag⟩
  | cons op rest ih =>
    obtain ⟨hv1, hv2⟩ := (validOps_cons op rest).mp hv
    cases op with
    | Reset =>
      obtain ⟨q, hq, hinv, hflq⟩ := ih false (ObjectPoolReset p) (PoolInv_reset p h)
        (fun hc => by cases hc) hv2
      exact ⟨q, by rw [runOps_cons p _ PoolOp.Reset rest rfl]; exact hq, hinv, hflq⟩
    | Update =>
      obtain ⟨p1, hs1, hinv1, hrel1, _⟩ := update_spec p h
      obtain ⟨q, hq, hinv, hflq⟩ := ih f p1 hinv1 (fun hc => by
        obtain ⟨i, hi1, hi2⟩ := hflag hc
        exact ⟨i, hrel1.kept _ i hi1 hi2, by rw [hrel1.inUse]; exact hi2⟩) hv2
      exact ⟨q, by rw [runOps_cons p p1 PoolOp.Update rest hs1]; exact hq, hinv, hflq⟩
    | FindOrCreateIndex id =>
      have hid := (validOp_findOrCreate id).mp hv1
      obtain ⟨j, p1, hs1, hinv1, hget1, hother1, hfl1, hfo1, _⟩ := foc_spec p h id hid
      have hap : applyOp p (PoolOp.FindOrCreateIndex id) = some p1 := by
        simp [applyOp, hs1]
      obtain ⟨q, hq, hinv, hflq⟩ := ih (f || decide (id = k)) p1 hinv1 (fun hc => by
        by_cases he : id = k
        · subst he
          exact ⟨j, hget1, hfl1⟩
        · have hf : f = true := by simpa [he] using hc
          obtain ⟨i, hi1, hi2⟩ := hflag hf
          have hkey : toImGuiID k ≠ toImGuiID id := fun hc' =>
            he (toImGuiID_inj hk hid hc').symm
          refine ⟨i, ?_, ?_⟩
          · unfold ObjectPoolFind at hi1 ⊢
            rw [hother1 _ hkey]
            exact hi1
          · by_cases hij : i = j
            · subst hij
              exact hfl1
            · rw [hfo1 i hij]
              exact hi2) hv2
      exact ⟨q, by rw [runOps_cons p p1 _ rest hap]; exact hq, hinv, hflq⟩

/-- Declarations of ids other than `k` leave `k` as it is: absent, or mapped to
the same slot with its flag clear. -/
theorem runDecls_unflagged {T : Type} [PoolObject T] (k : Int) (hk : isInt k) (d : List Int)
    (hd : ∀ id ∈ d, isInt id) (hkd : k ∉ d) (p : ImObjectPool T) (h : PoolInv p)
    (hu : Unflagged p k) :
    ∃ q : ImObjectPool T, runOps p (d.map PoolOp.FindOrCreateIndex) = some q ∧ PoolInv q ∧
      Unflagged q k := by
  induction d generalizing p with
  | nil => exact ⟨p, rfl, h, hu⟩
  | cons id rest ih =>
    have hid : isInt id := hd id (List.mem_cons_self _ _)
    have hne : k ≠ id := fun he => hkd (by rw [he]; exact List.mem_cons_self _ _)
    have hkey : toImGuiID k ≠ toImGuiID id := fun hc => hne (toImGuiID_inj hk hid hc)
    obtain ⟨j, p1, hs1, hinv1, hget1, hother1, hfl1, hfo1, _⟩ := foc_spec p h id hid
    have hap : applyOp p (PoolOp.FindOrCreateIndex id) = some p1 := by
      simp [applyOp, hs1]
    have hfind1 : ObjectPoolFind p1 k = ObjectPoolFind p k := hother1 _ hkey
    have hu1 : Unflagged p1 k := by
      rcases hu with hu | ⟨i, hi1, hi2⟩
      · left
        rw [hfind1]
        exact hu
      · right
        refine ⟨i, by rw [hfind1]; exact hi1, ?_⟩
        have hij : i ≠ j := by
          rintro rfl
          have hab : ObjectPoolFind p1 k = ObjectPoolFind p1 id := by
            rw [hfind1, hi1]
            exact hget1.symm
          exact hne (find_inj p1 hinv1 k id hk hid hab (by rw [hfind1, hi1]; omega))
        rw [hfo1 i hij]
        exact hi2
    obtain ⟨q, hq, hinv, huq⟩ := ih (fun x hx => hd x (List.mem_cons_of_mem _ hx))
      (fun hx => hkd (List.mem_cons_of_mem _ hx)) p1 hinv1 hu1
    exact ⟨q, by rw [List.map_cons, runOps_cons p p1 _ _ hap]; exact hq, hinv, huq⟩

theorem declaredSinceReset_decls_true (k : Int) (d : List Int) (tail : List PoolOp) :
    declaredSinceReset k true (d.map PoolOp.FindOrCreateIndex ++ tail) =
      declaredSinceReset k true tail := by
  induction d with
  | nil => rfl
  | cons id rest ih =>
    simp only [List.map_cons, List.cons_append, declaredSinceReset, Bool.true_or]
    exact ih

theorem declaredSinceReset_decls (k : Int) (f : Bool) (d : List Int) (tail : List PoolOp)
    (hk : k ∈ d) :
    declaredSinceReset k f (d.map PoolOp.FindOrCreateIndex ++ tail) =
      declaredSinceReset k true tail := by
  induction d generalizing f with
  | nil => cases hk
  | cons id rest ih =>
    simp only [List.map_cons, List.cons_append, declaredSinceReset]
    by_cases he : id = k
    · simp only [he, decide_True, Bool.or_true]
      exact declaredSinceReset_decls_true k rest tail
    · rcases List.mem_cons.mp hk with hk' | hk'
      · exact absurd hk'.symm he
      · exact ih _ hk'

theorem declaredAtEveryUpdate_decls_true (k : Int) (d : List Int) (tail : List PoolOp) :
    declaredAtEveryUpdate k true (d.map PoolOp.FindOrCreateIndex ++ tail) =
      declaredAtEveryUpdate k true tail := by
  induction d with
  | nil => rfl
  | cons id rest ih =>
    simp only [List.map_cons, List.cons_append, declaredAtEveryUpdate, Bool.true_or]
    exact ih

theorem declaredAtEveryUpdate_decls (k : Int) (f : Bool) (d : List Int) (tail : List PoolOp)
    (hk : k ∈ d) :
    declaredAtEveryUpdate k f (d.map PoolOp.FindOrCreateIndex ++ tail) =
      declaredAtEveryUpdate k true tail := by
  induction d generalizing f with
  | nil => cases hk
  | cons id rest ih =>
    simp only [List.map_cons, List.cons_append, declaredAtEveryUpdate]
    by_cases he : id = k
    · simp only [he, decide_True, Bool.or_true]
      exact declaredAtEveryUpdate_decls_true k rest tail
    · rcases List.mem_cons.mp hk with hk' | hk'
      · exact absurd hk'.symm he
      · exact ih _ hk'

theorem declaredAtEveryUpdate_frames (k : Int) (frames : List (List Int))
    (hframes : ∀ d ∈ frames, k ∈ d) (f : Bool) :
    declaredAtEveryUpdate k f (framesOps frames) = true := by
  induction frames generalizing f with
  | nil => rfl
  | cons d rest ih =>
    have hkd := hframes d (List.mem_cons_self _ _)
    show declaredAtEveryUpdate k f
      (PoolOp.Reset :: (d.map PoolOp.FindOrCreateIndex ++ [PoolOp.Update]) ++ framesOps rest) = true
    rw [List.cons_append, List.append_assoc]
    simp only [declaredAtEveryUpdate]
    rw [declaredAtEveryUpdate_decls k false d _ hkd]
    simp only [List.singleton_append, declaredAtEveryUpdate, Bool.true_and]
    exact ih (fun x hx => hframes x (List.mem_cons_of_mem _ hx)) true

theorem declaredAtEveryUpdate_of_append (k : Int) (a b : List PoolOp) (f : Bool)
    (h : declaredAtEveryUpdate k f (a ++ b) = true) : declaredAtEveryUpdate k f a = true := by
  induction a generalizing f with
  | nil => rfl
  | cons op rest ih =>
    cases op with
    | Reset => exact ih false h
    | FindOrCreateIndex id => exact ih _ h
    | Update =>
      simp only [List.cons_append, declaredAtEveryUpdate, Bool.and_eq_true] at h ⊢
      exact ⟨h.1, ih f h.2⟩

theorem validOps_framesOps (frames : List (List Int))
    (hframes : ∀ d ∈ frames, ∀ id ∈ d, isInt id) : validOps (framesOps frames) = true := by
  induction frames with
  | nil => rfl
  | cons d rest ih =>
    show validOps (frameOps d ++ framesOps rest) = true
    rw [validOps_append]
    exact ⟨(validOps_frameOps d).mpr (hframes d (List.mem_cons_self _ _)),
      ih (fun x hx => hframes x (List.mem_cons_of_mem _ hx))⟩

/-- A frame that declares `k` ends with `k` mapped. -/
theorem frame_with {T : Type} [PoolObject T] (k : Int) (hk : isInt k) (d : List Int)
    (hd : ∀ id ∈ d, isInt id) (hkd : k ∈ d) (p : ImObjectPool T) (h : PoolInv p) :
    ∃ q : ImObjectPool T, runOps p (frameOps d) = some q ∧ PoolInv q ∧
      ObjectPoolFind q k ≠ -1 := by
  obtain ⟨q, hq, hinv, hfl⟩ := runOps_declared k hk (frameOps d) false p h
    (fun hc => by cases hc) ((validOps_frameOps d).mpr hd)
  refine ⟨q, hq, hinv, ?_⟩
  have hdecl : declaredSinceReset k false (frameOps d) = true := by
    show declaredSinceReset k false
      (PoolOp.Reset :: (d.map PoolOp.FindOrCreateIndex ++ [PoolOp.Update])) = true
    simp only [declaredSinceReset]
    rw [declaredSinceReset_decls k false d _ hkd]
    rfl
  obtain ⟨i, hi, _⟩ := hfl hdecl
  rw [hi]
  omega

/-- A frame that does not declare `k` ends with `k` absent. -/
theorem frame_without {T : Type} [PoolObject T] (k : Int) (hk : isInt k) (d : List Int)
    (hd : ∀ id ∈ d, isInt id) (hkd : k ∉ d) (p : ImObjectPool T) (h : PoolInv p) :
    ∃ q : ImObjectPool T, runOps p (frameOps d) = some q ∧ PoolInv q ∧
      ObjectPoolFind q k = -1 := by
  obtain ⟨p1, hs1, hinv1, hu1⟩ := runDecls_unflagged k hk d hd hkd (ObjectPoolReset p)
    (PoolInv_reset p h) (reset_unflagged p h k)
  obtain ⟨q, hs, hinv, hrel, hev⟩ := update_spec p1 hinv1
  refine ⟨q, ?_, hinv, ?_⟩
  · show runOps p (PoolOp.Reset :: (d.map PoolOp.FindOrCreateIndex ++ [PoolOp.Update])) = some q
    rw [runOps_cons p (ObjectPoolReset p) PoolOp.Reset _ rfl,
      runOps_append _ p1 _ _ hs1, runOps_cons p1 q PoolOp.Update [] hs]
    rfl
  · rcases hu1 with hu | ⟨i, hi1, hi2⟩
    · rcases hrel.getInt (toImGuiID k) with hg | hg
      · exact hg.trans hu
      · exact hg
    · exact (hev (toImGuiID k) i hi1 hi2).1

/-! ## Claims about `ObjectPoolUpdate` and frames -/

/-- C5. On every reachable pool `ObjectPoolUpdate` completes, and for every id
`k` mapped to a slot `i` before it (`i` is then a valid index): if `InUse[i]` is
clear, afterwards `ObjectPoolFind(k) = -1` and `i` is on the free list; if
`InUse[i]` is set, afterwards `ObjectPoolFind(k) = i` still and `i` is not on the
free list.  An id that was absent stays absent.  And an id declared in a frame
(so mapped at its end) and not declared in the next frame is absent after the
`ObjectPoolUpdate` of that next frame. -/
theorem C5_update_eviction {T : Type} [PoolObject T] (p : ImObjectPool T) (hr : Reachable p) :
    ∃ p' : ImObjectPool T, ObjectPoolUpdate p = some p' ∧
      (∀ k i : Int, ObjectPoolFind p k = i → i ≠ -1 →
        (0 ≤ i ∧ i < (p.InUse.length : Int)) ∧
        (p.InUse[i.toNat]? = some false → ObjectPoolFind p' k = -1 ∧ i ∈ p'.FreeList) ∧
        (p.InUse[i.toNat]? = some true → ObjectPoolFind p' k = i ∧ i ∉ p'.FreeList)) ∧
      (∀ k : Int, ObjectPoolFind p k = -1 → ObjectPoolFind p' k = -1) ∧
      (∀ (k : Int) (declsN declsN1 : List Int), isInt k →
        (∀ id ∈ declsN, isInt id) → (∀ id ∈ declsN1, isInt id) → k ∈ declsN → k ∉ declsN1 →
        ∃ q1 q2 : ImObjectPool T,
          runOps p (frameOps declsN) = some q1 ∧ ObjectPoolFind q1 k ≠ -1 ∧
          runOps q1 (frameOps declsN1) = some q2 ∧ ObjectPoolFind q2 k = -1) := by
  have hinv := Reachable_inv p hr
  obtain ⟨p', hs, _, hrel, hev⟩ := update_spec p hinv
  refine ⟨p', hs, ?_, ?_, ?_⟩
  · intro k i hfind hne
    have hne' : p.IdMap.GetInt (toImGuiID k) (-1) ≠ -1 := by
      change ObjectPoolFind p k ≠ -1
      rw [hfind]
      exact hne
    obtain ⟨n, obj, h1, h2, _, _, h5⟩ := hinv.mapped (toImGuiID k) hne'
    have hin : i = (n : Int) := by
      rw [← hfind]
      exact h1
    subst hin
    have hlt : n < p.InUse.length := by
      rw [← hinv.len]
      exact getElem?_some_lt _ _ _ h2
    simp only [Int.toNat_ofNat]
    refine ⟨⟨by omega, by omega⟩, ?_, ?_⟩
    · intro hfalse
      exact hev (toImGuiID k) n h1 hfalse
    · intro htrue
      refine ⟨hrel.kept (toImGuiID k) n h1 htrue, ?_⟩
      intro hmem
      rcases hrel.freeNew _ hmem with hold | ⟨j, hj, hjf⟩
      · exact h5 hold
      · have := Int.ofNat_inj.mp hj
        subst this
        rw [htrue] at hjf
        cases hjf
  · intro k hk
    rcases hrel.getInt (toImGuiID k) with hg | hg
    · exact hg.trans hk
    · exact hg
  · intro k dN dN1 hk hdN hdN1 hkN hkN1
    obtain ⟨q1, hq1, hinv1, hf1⟩ := frame_with k hk dN hdN hkN p hinv
    obtain ⟨q2, hq2, _, hf2⟩ := frame_without k hk dN1 hdN1 hkN1 q1 hinv1
    exact ⟨q1, q2, hq1, hf1, hq2, hf2⟩

/-- C5 at the reachable pool `nodesAfterReset`, whose node 5 sits unflagged in
slot 0. -/
theorem C5_update_eviction_witness :
    Reachable nodesAfterReset ∧
    ∃ p' : ImObjectPool ImNodeData, ObjectPoolUpdate nodesAfterReset = some p' ∧
      (∀ k i : Int, ObjectPoolFind nodesAfterReset k = i → i ≠ -1 →
        (0 ≤ i ∧ i < (nodesAfterReset.InUse.length : Int)) ∧
        (nodesAfterReset.InUse[i.toNat]? = some false →
          ObjectPoolFind p' k = -1 ∧ i ∈ p'.FreeList) ∧
        (nodesAfterReset.InUse[i.toNat]? = some true →
          ObjectPoolFind p' k = i ∧ i ∉ p'.FreeList)) ∧
      (∀ k : Int, ObjectPoolFind nodesAfterReset k = -1 → ObjectPoolFind p' k = -1) ∧
      (∀ (k : Int) (declsN declsN1 : List Int), isInt k →
        (∀ id ∈ declsN, isInt id) → (∀ id ∈ declsN1, isInt id) → k ∈ declsN → k ∉ declsN1 →
        ∃ q1 q2 : ImObjectPool ImNodeData,
          runOps nodesAfterReset (frameOps declsN) = some q1 ∧ ObjectPoolFind q1 k ≠ -1 ∧
          runOps q1 (frameOps declsN1) = some q2 ∧ ObjectPoolFind q2 k = -1) :=
  ⟨⟨[PoolOp.FindOrCreateIndex 5, PoolOp.Reset], by decide, by decide⟩,
    C5_update_eviction nodesAfterReset
      ⟨[PoolOp.FindOrCreateIndex 5, PoolOp.Reset], by decide, by decide⟩⟩

/-- C6. In every reachable pool in which the `int` id `k` is mapped to slot `i`,
and for every sequence of frames that each declare `k` (each frame being
`ObjectPoolReset`, `ObjectPoolFindOrCreateIndex` calls on `int` ids, among them
`k`, then `ObjectPoolUpdate`): after every initial part `pre` of the calls of
those frames, that is, after every frame and at every point inside every frame,
`ObjectPoolFind(k)` is `i`. -/
theorem C6_slot_stability {T : Type} [PoolObject T] (p : ImObjectPool T) (hr : Reachable p)
    (k i : Int) (hi : i ≠ -1) (hfind : ObjectPoolFind p k = i)
    (frames : List (List Int)) (hframes : ∀ d ∈ frames, k ∈ d ∧ ∀ id ∈ d, isInt id)
    (pre : List PoolOp) (hpre : pre <+: framesOps frames) :
    ∃ q : ImObjectPool T, runOps p pre = some q ∧ ObjectPoolFind q k = i := by
  have hinv := Reachable_inv p hr
  have hne : p.IdMap.GetInt (toImGuiID k) (-1) ≠ -1 := by
    change ObjectPoolFind p k ≠ -1
    rw [hfind]
    exact hi
  obtain ⟨n, _, h1, _⟩ := hinv.mapped (toImGuiID k) hne
  have hin : i = (n : Int) := by
    rw [← hfind]
    exact h1
  subst hin
  obtain ⟨t, ht⟩ := hpre
  have hv : validOps (pre ++ t) = true := by
    rw [ht]
    exact validOps_framesOps frames (fun d hd => (hframes d hd).2)
  have hsafe : declaredAtEveryUpdate k false (pre ++ t) = true := by
    rw [ht]
    exact declaredAtEveryUpdate_frames k frames (fun d hd => (hframes d hd).1) false
  obtain ⟨q, hq, _, hfq, _⟩ := runOps_stable k n pre false p hinv hfind (fun hc => by cases hc)
    ((validOps_append pre t).mp hv).1 (declaredAtEveryUpdate_of_append k pre t false hsafe)
  exact ⟨q, hq, hfq⟩

/-- C6 at the reachable pool `pinsOneFree`, pin 7 in slot 0, two frames that
declare pin 7, stopped inside the second frame. -/
theorem C6_slot_stability_witness :
    Reachable pinsOneFree ∧ (0 : Int) ≠ -1 ∧ ObjectPoolFind pinsOneFree 7 = 0 ∧
    (∀ d ∈ [[9, 7], [7, 3]], (7 : Int) ∈ d ∧ ∀ id ∈ d, isInt id) ∧
    [PoolOp.Reset, PoolOp.FindOrCreateIndex 9, PoolOp.FindOrCreateIndex 7, PoolOp.Update,
      PoolOp.Reset] <+: framesOps [[9, 7], [7, 3]] ∧
    ∃ q : ImObjectPool ImPinData,
      runOps pinsOneFree
        [PoolOp.Reset, PoolOp.FindOrCreateIndex 9, PoolOp.FindOrCreateIndex 7, PoolOp.Update,
          PoolOp.Reset] = some q ∧
      ObjectPoolFind q 7 = 0 :=
  have hreach : Reachable pinsOneFree :=
    ⟨[PoolOp.FindOrCreateIndex 7, PoolOp.FindOrCreateIndex 8, PoolOp.Update, PoolOp.Reset,
      PoolOp.FindOrCreateIndex 7, PoolOp.Update], by decide, by decide⟩
  have hfr : ∀ d ∈ [[9, 7], [7, 3]], (7 : Int) ∈ d ∧ ∀ id ∈ d, isInt id := by decide
  have hpre : [PoolOp.Reset, PoolOp.FindOrCreateIndex 9, PoolOp.FindOrCreateIndex 7,
      PoolOp.Update, PoolOp.Reset] <+: framesOps [[9, 7], [7, 3]] :=
    ⟨[PoolOp.FindOrCreateIndex 7, PoolOp.FindOrCreateIndex 3, PoolOp.Update], rfl⟩
  ⟨hreach, by decide, by decide, hfr, hpre,
    C6_slot_stability pinsOneFree hreach 7 0 (by decide) (by decide) [[9, 7], [7, 3]] hfr _ hpre⟩

/-! ## Claims about the reachable states -/

/-- C7. In every reachable pool no slot is shared by two live ids: for `int` ids
`a` and `b`, if `ObjectPoolFind(a) = ObjectPoolFind(b)` and that value is not
`-1`, then `a = b`. -/
theorem C7_no_shared_slot {T : Type} [PoolObject T] (p : ImObjectPool T) (hr : Reachable p)
    (a b : Int) (ha : isInt a) (hb : isInt b)
    (hab : ObjectPoolFind p a = ObjectPoolFind p b) (hne : ObjectPoolFind p a ≠ -1) : a = b :=
  find_inj p (Reachable_inv p hr) a b ha hb hab hne

/-- C7 at the reachable pool `pinsOneFree` and its live pin 7. -/
theorem C7_no_shared_slot_witness :
    Reachable pinsOneFree ∧ isInt 7 ∧
    ObjectPoolFind pinsOneFree 7 = ObjectPoolFind pinsOneFree 7 ∧
    ObjectPoolFind pinsOneFree 7 ≠ -1 ∧ (7 : Int) = 7 :=
  have hreach : Reachable pinsOneFree :=
    ⟨[PoolOp.FindOrCreateIndex 7, PoolOp.FindOrCreateIndex 8, PoolOp.Update, PoolOp.Reset,
      PoolOp.FindOrCreateIndex 7, PoolOp.Update], by decide, by decide⟩
  ⟨hreach, by decide, rfl, by decide,
    C7_no_shared_slot pinsOneFree hreach 7 7 (by decide) (by decide) rfl (by decide)⟩

/-- C8. In every reachable pool the free list holds no mapped slot: an element of
`FreeList` is not the `ObjectPoolFind` of any id, and it is a valid index whose
`InUse` flag is clear. -/
theorem C8_free_list_unmapped {T : Type} [PoolObject T] (p : ImObjectPool T) (hr : Reachable p)
    (x : Int) (hx : x ∈ p.FreeList) :
    (∀ k : Int, ObjectPoolFind p k ≠ x) ∧
    0 ≤ x ∧ x < (p.InUse.length : Int) ∧ p.InUse[x.toNat]? = some false := by
  have hinv := Reachable_inv p hr
  obtain ⟨n, rfl, hn⟩ := hinv.free x hx
  have hlt := getElem?_some_lt _ _ _ hn
  refine ⟨?_, by omega, by omega, by simpa using hn⟩
  intro k hk
  have hne : p.IdMap.GetInt (toImGuiID k) (-1) ≠ -1 := by
    change ObjectPoolFind p k ≠ -1
    rw [hk]
    omega
  obtain ⟨j, _, h1, _, _, _, h5⟩ := hinv.mapped (toImGuiID k) hne
  have hjn : (j : Int) = (n : Int) := by
    rw [← h1]
    exact hk
  rw [hjn] at h5
  exact h5 hx

/-- C8 at the reachable pool `pinsOneFree` and its free slot 1. -/
theorem C8_free_list_unmapped_witness :
    Reachable pinsOneFree ∧ (1 : Int) ∈ pinsOneFree.FreeList ∧
    (∀ k : Int, ObjectPoolFind pinsOneFree k ≠ 1) ∧
    (0 : Int) ≤ 1 ∧ (1 : Int) < (pinsOneFree.InUse.length : Int) ∧
    pinsOneFree.InUse[(1 : Int).toNat]? = some false :=
  have hreach : Reachable pinsOneFree :=
    ⟨[PoolOp.FindOrCreateIndex 7, PoolOp.FindOrCreateIndex 8, PoolOp.Update, PoolOp.Reset,
      PoolOp.FindOrCreateIndex 7, PoolOp.Update], by decide, by decide⟩
  ⟨hreach, by decide, C8_free_list_unmapped pinsOneFree hreach 1 (by decide)⟩

/-- A key that is mapped after a valid call sequence was mapped before it or is
the key of an id the sequence declared. -/
theorem runOps_history {T : Type} [PoolObject T] (ops : List PoolOp) (p q : ImObjectPool T)
    (h : PoolInv p) (hv : validOps ops = true) (hrun : runOps p ops = some q) (key : Nat)
    (hq : q.IdMap.GetInt key (-1) ≠ -1) :
    p.IdMap.GetInt key (-1) ≠ -1 ∨ ∃ id ∈ declaredIds ops, toImGuiID id = key := by
  induction ops generalizing p with
  | nil =>
    injection hrun with hrun
    subst hrun
    exact Or.inl hq
  | cons op rest ih =>
    obtain ⟨hv1, hv2⟩ := (validOps_cons op rest).mp hv
    cases op with
    | Reset =>
      rw [runOps_cons p _ PoolOp.Reset rest rfl] at hrun
      rcases ih (ObjectPoolReset p) (PoolInv_reset p h) hv2 hrun with h1 | ⟨id, hid, hkey⟩
      · left
        rw [reset_eq] at h1
        exact h1
      · exact Or.inr ⟨id, hid, hkey⟩
    | Update =>
      obtain ⟨p1, hs1, hinv1, hrel1, _⟩ := update_spec p h
      rw [runOps_cons p p1 PoolOp.Update rest hs1] at hrun
      rcases ih p1 hinv1 hv2 hrun with h1 | ⟨id, hid, hkey⟩
      · left
        rcases hrel1.getInt key with hg | hg
        · rw [← hg]
          exact h1
        · exact absurd hg h1
      · exact Or.inr ⟨id, hid, hkey⟩
    | FindOrCreateIndex x =>
      have hx := (validOp_findOrCreate x).mp hv1
      obtain ⟨j, p1, hs1, hinv1, _, hother1, _⟩ := foc_spec p h x hx
      have hap : applyOp p (PoolOp.FindOrCreateIndex x) = some p1 := by
        simp [applyOp, hs1]
      rw [runOps_cons p p1 _ rest hap] at hrun
      rcases ih p1 hinv1 hv2 hrun with h1 | ⟨id, hid, hkey⟩
      · by_cases hk : key = toImGuiID x
        · right
          exact ⟨x, List.mem_cons_self _ _, hk.symm⟩
        · left
          rw [← hother1 key hk]
          exact h1
      · right
        exact ⟨id, List.mem_cons_of_mem _ hid, hkey⟩

/-- C9. On the empty pool `ObjectPoolFind(k) = -1` for every `k`.  After every
valid call sequence from the empty pool and for every `int` id `k`,
`ObjectPoolFind(k)` is `-1` or a valid index of `Pool` whose object has `Id = k`;
and it differs from `-1` only if the sequence passed `k` to
`ObjectPoolFindOrCreateIndex`. -/
theorem C9_find_absent_or_valid {T : Type} [PoolObject T] :
    (∀ k : Int, ObjectPoolFind (ImObjectPool.empty : ImObjectPool T) k = -1) ∧
    ∀ (ops : List PoolOp) (p : ImObjectPool T), validOps ops = true →
      runOps ImObjectPool.empty ops = some p → ∀ k : Int, isInt k →
        (ObjectPoolFind p k = -1 ∨
          ∃ obj : T, 0 ≤ ObjectPoolFind p k ∧ ObjectPoolFind p k < (p.Pool.length : Int) ∧
            p.Pool[(ObjectPoolFind p k).toNat]? = some obj ∧ PoolObject.Id obj = k) ∧
        (ObjectPoolFind p k ≠ -1 → k ∈ declaredIds ops) := by
  refine ⟨fun _ => rfl, ?_⟩
  intro ops p hv hrun k hk
  have hinv : PoolInv p := Reachable_inv p ⟨ops, hv, hrun⟩
  refine ⟨?_, ?_⟩
  · by_cases hf : ObjectPoolFind p k = -1
    · exact Or.inl hf
    · right
      obtain ⟨n, obj, h1, h2, h3, h4, _⟩ := hinv.mapped (toImGuiID k) hf
      have h1' : ObjectPoolFind p k = (n : Int) := h1
      have hlt := getElem?_some_lt _ _ _ h2
      refine ⟨obj, by omega, by omega, ?_, toImGuiID_inj h3 hk h4⟩
      rw [h1']
      simpa using h2
  · intro hf
    rcases runOps_history ops (ImObjectPool.empty : ImObjectPool T) p PoolInv_empty hv hrun
        (toImGuiID k) hf with h0 | ⟨id, hid, hkey⟩
    · exact absurd rfl h0
    · have := toImGuiID_inj (isInt_of_declared ops hv id hid) hk hkey
      rw [← this]
      exact hid

/-- C9 after the calls that lead to `pinsOneFree`, at the live pin 7. -/
theorem C9_find_absent_or_valid_witness :
    validOps [PoolOp.FindOrCreateIndex 7, PoolOp.FindOrCreateIndex 8, PoolOp.Update,
      PoolOp.Reset, PoolOp.FindOrCreateIndex 7, PoolOp.Update] = true ∧
    runOps ImObjectPool.empty [PoolOp.FindOrCreateIndex 7, PoolOp.FindOrCreateIndex 8,
      PoolOp.Update, PoolOp.Reset, PoolOp.FindOrCreateIndex 7, PoolOp.Update] =
        some pinsOneFree ∧
    isInt 7 ∧
    (ObjectPoolFind pinsOneFree 7 = -1 ∨
      ∃ obj : ImPinData, 0 ≤ ObjectPoolFind pinsOneFree 7 ∧
        ObjectPoolFind pinsOneFree 7 < (pinsOneFree.Pool.length : Int) ∧
        pinsOneFree.Pool[(ObjectPoolFind pinsOneFree 7).toNat]? = some obj ∧
        PoolObject.Id obj = 7) ∧
    (ObjectPoolFind pinsOneFree 7 ≠ -1 →
      (7 : Int) ∈ declaredIds [PoolOp.FindOrCreateIndex 7, PoolOp.FindOrCreateIndex 8,
        PoolOp.Update, PoolOp.Reset, PoolOp.FindOrCreateIndex 7, PoolOp.Update]) :=
  ⟨by decide, by decide, by decide,
    (@C9_find_absent_or_valid ImPinData _).2 _ pinsOneFree (by decide) (by decide) 7
      (by decide)⟩

/-- C10. For every pool, `ObjectPoolReset` clears every `InUse` flag and changes
nothing else: `InUse` keeps its length and all its entries are `false`; `Pool`,
`FreeList` and `IdMap`, hence every `ObjectPoolFind` result, are unchanged; and
on a pool with no slots the call changes nothing at all. -/
theorem C10_reset_frame {T : Type} (p : ImObjectPool T) :
    (ObjectPoolReset p).InUse.length = p.InUse.length ∧
    (∀ b ∈ (ObjectPoolReset p).InUse, b = false) ∧
    (∀ i : Nat, i < p.InUse.length → (ObjectPoolReset p).InUse[i]? = some false) ∧
    (ObjectPoolReset p).Pool = p.Pool ∧
    (ObjectPoolReset p).FreeList = p.FreeList ∧
    (ObjectPoolReset p).IdMap = p.IdMap ∧
    (∀ k : Int, ObjectPoolFind (ObjectPoolReset p) k = ObjectPoolFind p k) ∧
    (p.InUse = [] → ObjectPoolReset p = p) := by
  refine ⟨?_, ?_, ?_, ?_, ?_, ?_, fun k => reset_find p k, ?_⟩
  · rw [reset_eq]
    exact List.length_replicate _ _
  · intro b hb
    rw [reset_eq] at hb
    exact (List.mem_replicate.mp hb).2
  · intro i hi
    rw [reset_eq]
    show (List.replicate p.InUse.length false)[i]? = some false
    rw [List.getElem?_replicate, if_pos hi]
  · rw [reset_eq]
  · rw [reset_eq]
  · rw [reset_eq]
  · intro hnil
    unfold ObjectPoolReset
    rw [hnil]
    rfl

/-- C10 at the pool `pinsOneFree`, whose slot 0 is flagged, and at the empty
pool. -/
theorem C10_reset_frame_witness :
    ObjectPoolReset pinsOneFree = { pinsOneFree with InUse := [false, false] } ∧
    ObjectPoolReset (ImObjectPool.empty : ImObjectPool ImPinData) = ImObjectPool.empty :=
  ⟨by decide, (C10_reset_frame (ImObjectPool.empty : ImObjectPool ImPinData)).2.2.2.2.2.2.2 rfl⟩

/-! ## Claims about the optional index and the editor context -/

/-- C13. The struct `ImOptionalIndex` is an optional integer with sentinel `-1`:
a default-constructed value and any value after `Reset()` have no value; for
every `v` other than `-1`, constructing from `v` or assigning `v` gives
`HasValue() = true` and `Value() = v`; constructing from or assigning `-1` gives
`HasValue() = false`; and `Value()` passes its `IM_ASSERT` exactly when
`HasValue()` is true, returning `m_index` then. -/
theorem C13_optional_index :
    ImOptionalIndex.ctor.HasValue = false ∧
    (∀ a : ImOptionalIndex, a.Reset.HasValue = false) ∧
    (∀ v : Int, v ≠ -1 →
      (ImOptionalIndex.ctorInt v).HasValue = true ∧ (ImOptionalIndex.ctorInt v).Value = some v) ∧
    (∀ (a : ImOptionalIndex) (v : Int), v ≠ -1 →
      (a.operator_assign v).HasValue = true ∧ (a.operator_assign v).Value = some v) ∧
    (ImOptionalIndex.ctorInt (-1)).HasValue = false ∧
    (∀ a : ImOptionalIndex, (a.operator_assign (-1)).HasValue = false) ∧
    (∀ a : ImOptionalIndex, a.Value.isSome = a.HasValue) ∧
    (∀ a : ImOptionalIndex, a.HasValue = true → a.Value = some a.m_index) := by
  refine ⟨rfl, fun _ => rfl, ?_, ?_, rfl, fun _ => rfl, ?_, ?_⟩
  · intro v hv
    have h : (ImOptionalIndex.ctorInt v).HasValue = true := by
      simp [ImOptionalIndex.HasValue, ImOptionalIndex.ctorInt, INVALID_INDEX, hv]
    refine ⟨h, ?_⟩
    rw [ImOptionalIndex.Value, if_pos h]
    rfl
  · intro a v hv
    have h : (a.operator_assign v).HasValue = true := by
      simp [ImOptionalIndex.HasValue, ImOptionalIndex.operator_assign, INVALID_INDEX, hv]
    refine ⟨h, ?_⟩
    rw [ImOptionalIndex.Value, if_pos h]
    rfl
  · intro a
    unfold ImOptionalIndex.Value
    cases a.HasValue <;> rfl
  · intro a h
    rw [ImOptionalIndex.Value, if_pos h]

/-- C13 at the value 4: constructed from 4, or assigned 4 after a `Reset()`. -/
theorem C13_optional_index_witness :
    (ImOptionalIndex.ctorInt 4).HasValue = true ∧ (ImOptionalIndex.ctorInt 4).Value = some 4 ∧
    ((ImOptionalIndex.ctorInt 9).Reset.operator_assign 4).Value = some 4 :=
  ⟨(C13_optional_index.2.2.1 4 (by decide)).1, (C13_optional_index.2.2.1 4 (by decide)).2,
    (C13_optional_index.2.2.2.1 _ 4 (by decide)).2⟩

/-- C14. Comparison of `ImOptionalIndex`: `a == b` holds exactly when both are
empty or both hold a value and the values are equal; `a == n` holds exactly when
the stored index of `a` is `n`, which for `n` other than `-1` says that `a` holds
the value `n` and for `n = -1` that `a` is empty; and in both overloads `!=` is
the negation of `==`. -/
theorem C14_optional_index_comparison (a b : ImOptionalIndex) (n : Int) :
    (a.operator_eq b = true ↔
      (a.HasValue = false ∧ b.HasValue = false) ∨
      (a.HasValue = true ∧ b.HasValue = true ∧ a.Value = b.Value)) ∧
    (a.operator_eq_int n = true ↔ a.m_index = n) ∧
    (n ≠ -1 → (a.operator_eq_int n = true ↔ a.HasValue = true ∧ a.Value = some n)) ∧
    (a.operator_eq_int (-1) = true ↔ a.HasValue = false) ∧
    a.operator_ne b = !a.operator_eq b ∧
    a.operator_ne_int n = !a.operator_eq_int n := by
  obtain ⟨x⟩ := a
  obtain ⟨y⟩ := b
  refine ⟨?_, ?_, ?_, ?_, rfl, rfl⟩
  · by_cases hx : x = -1
    · by_cases hy : y = -1
      · subst hx hy
        decide
      · subst hx
        simp [ImOptionalIndex.operator_eq, ImOptionalIndex.HasValue, ImOptionalIndex.Value,
          INVALID_INDEX, hy]
        omega
    · by_cases hy : y = -1
      · subst hy
        simp [ImOptionalIndex.operator_eq, ImOptionalIndex.HasValue, ImOptionalIndex.Value,
          INVALID_INDEX, hx]
      · simp [ImOptionalIndex.operator_eq, ImOptionalIndex.HasValue, ImOptionalIndex.Value,
          INVALID_INDEX, hx, hy]
  · simp [ImOptionalIndex.operator_eq_int]
  · intro hn
    by_cases hx : x = -1
    · subst hx
      simp [ImOptionalIndex.operator_eq_int, ImOptionalIndex.HasValue, INVALID_INDEX]
      omega
    · simp [ImOptionalIndex.operator_eq_int, ImOptionalIndex.HasValue, ImOptionalIndex.Value,
        INVALID_INDEX, hx]
  · simp [ImOptionalIndex.operator_eq_int, ImOptionalIndex.HasValue, INVALID_INDEX]

/-- C14 at the optionals holding 3 and 3 and the raw index 3. -/
theorem C14_optional_index_comparison_witness :
    (3 : Int) ≠ -1 ∧
    ((ImOptionalIndex.ctorInt 3).operator_eq_int 3 = true ↔
      (ImOptionalIndex.ctorInt 3).HasValue = true ∧ (ImOptionalIndex.ctorInt 3).Value = some 3) :=
  ⟨by decide,
    (C14_optional_index_comparison (ImOptionalIndex.ctorInt 3) (ImOptionalIndex.ctorInt 3) 3).2.2.1
      (by decide)⟩

/-- C15. A freshly constructed editor context has no active interaction: the
default-constructed `ImClickInteractionState`, which is also the member
`ClickInteraction` of `ImNodesEditorContext()`, has
`Type = ImNodesClickInteractionType_None`, and its `LinkCreation.EndPinIdx` has
no value. -/
theorem C15_fresh_context_no_interaction :
    ImClickInteractionState.ctor.Type_ = ImNodesClickInteractionType_None ∧
    ImClickInteractionState.ctor.LinkCreation.EndPinIdx.HasValue = false ∧
    ImNodesEditorContext.ctor.ClickInteraction = ImClickInteractionState.ctor ∧
    ImNodesEditorContext.ctor.ClickInteraction.Type_ = ImNodesClickInteractionType_None ∧
    ImNodesEditorContext.ctor.ClickInteraction.LinkCreation.EndPinIdx.HasValue = false :=
  ⟨rfl, rfl, rfl, rfl, rfl⟩

/-! ## Further claims about `ObjectPoolUpdate` -/

/-- Writing a record of the pool, its `Id` left as it is, keeps the invariant:
the invariant speaks of the `Id` of a record only. -/
theorem PoolInv_write {T : Type} [PoolObject T] (p : ImObjectPool T) (h : PoolInv p) (i : Nat)
    (obj obj' : T) (ho : p.Pool[i]? = some obj)
    (hid : PoolObject.Id obj' = PoolObject.Id obj) :
    PoolInv { p with Pool := p.Pool.set i obj' } := by
  have hi : i < p.Pool.length := getElem?_some_lt _ _ _ ho
  refine ⟨?_, h.sorted, ?_, h.free, h.nodup, ?_⟩
  · show (p.Pool.set i obj').length = p.InUse.length
    rw [List.length_set]
    exact h.len
  · intro key hne
    obtain ⟨j, o, h1, h2, h3, h4, h5⟩ := h.mapped key hne
    by_cases hij : i = j
    · subst hij
      rw [ho] at h2
      injection h2 with h2
      subst h2
      refine ⟨i, obj', h1, List.getElem?_set_self hi, ?_, ?_, h5⟩
      · rw [hid]; exact h3
      · rw [hid]; exact h4
    · refine ⟨j, o, h1, ?_, h3, h4, h5⟩
      show (p.Pool.set i obj')[j]? = some o
      rw [List.getElem?_set_ne hij]
      exact h2
  · intro j o hobj
    change (p.Pool.set i obj')[j]? = some o at hobj
    show (j : Int) ∈ p.FreeList ∨
      p.IdMap.GetInt (toImGuiID (PoolObject.Id o)) (-1) = (j : Int)
    by_cases hij : i = j
    · subst hij
      rw [List.getElem?_set_self hi] at hobj
      injection hobj with hobj
      subst hobj
      rw [hid]
      exact h.covered i obj ho
    · rw [List.getElem?_set_ne hij] at hobj
      exact h.covered j o hobj

/-- C11. Garbage collection does not disturb live slots.  The statement is made
of every pool that satisfies the representation invariant `PoolInv`: every
reachable pool does (`Reachable_inv`), and so does a reachable pool whose records
the caller has since written, their `Id` apart (`PoolInv_write`), so the records
spoken of are arbitrary ones, not only freshly constructed ones.  On such a pool
`ObjectPoolUpdate` completes; the length of `Pool` and the whole of `InUse` are
unchanged; the object of every slot whose flag is set is unchanged; and every id
mapped to a flagged slot keeps its `ObjectPoolFind` result.  So a slot index `j`
stored in another record (`ParentNodeIdx` of a pin, `StartPinIdx` or `EndPinIdx`
of a link) that denotes a flagged slot holding `obj` still denotes a flagged
slot holding the same `obj` after the call. -/
theorem C11_update_keeps_live_slots {T : Type} [PoolObject T] (p : ImObjectPool T)
    (hp : PoolInv p) :
    ∃ p' : ImObjectPool T, ObjectPoolUpdate p = some p' ∧
      p'.Pool.length = p.Pool.length ∧ p'.InUse = p.InUse ∧
      (∀ j : Nat, p.InUse[j]? = some true → p'.Pool[j]? = p.Pool[j]?) ∧
      (∀ (k : Int) (i : Nat), ObjectPoolFind p k = (i : Int) → p.InUse[i]? = some true →
        ObjectPoolFind p' k = (i : Int)) ∧
      (∀ (j : Int) (obj : T), 0 ≤ j → p.InUse[j.toNat]? = some true →
        p.Pool[j.toNat]? = some obj →
        p'.InUse[j.toNat]? = some true ∧ p'.Pool[j.toNat]? = some obj) := by
  obtain ⟨p', hs, _, hrel, _⟩ := update_spec p hp
  refine ⟨p', hs, hrel.poolLen, hrel.inUse, hrel.poolKept, ?_, ?_⟩
  · intro k i hk hi
    exact hrel.kept (toImGuiID k) i hk hi
  · intro j obj _ hj hobj
    refine ⟨by rw [hrel.inUse]; exact hj, ?_⟩
    rw [hrel.poolKept _ hj]
    exact hobj

/-- C11 at the pool `pinsWritten`, whose records the caller has written: the
call evicts pin 8 from slot 1, and pin 7 keeps slot 0, its flag and its written
record, so that a stored index 0 still denotes that record. -/
theorem C11_update_keeps_live_slots_witness :
    PoolInv pinsWritten ∧
    ObjectPoolUpdate pinsWritten =
      some { pinsWritten with FreeList := [1], IdMap := ⟨[⟨7, 0⟩, ⟨8, -1⟩]⟩ } ∧
    ∃ p' : ImObjectPool ImPinData, ObjectPoolUpdate pinsWritten = some p' ∧
      p'.Pool.length = pinsWritten.Pool.length ∧ p'.InUse = pinsWritten.InUse ∧
      (∀ j : Nat, pinsWritten.InUse[j]? = some true → p'.Pool[j]? = pinsWritten.Pool[j]?) ∧
      (∀ (k : Int) (i : Nat), ObjectPoolFind pinsWritten k = (i : Int) →
        pinsWritten.InUse[i]? = some true → ObjectPoolFind p' k = (i : Int)) ∧
      (∀ (j : Int) (obj : ImPinData), 0 ≤ j → pinsWritten.InUse[j.toNat]? = some true →
        pinsWritten.Pool[j.toNat]? = some obj →
        p'.InUse[j.toNat]? = some true ∧ p'.Pool[j.toNat]? = some obj) :=
  have hfresh : PoolInv pinsFresh :=
    Reachable_inv pinsFresh
      ⟨[PoolOp.FindOrCreateIndex 7, PoolOp.FindOrCreateIndex 8, PoolOp.Reset,
        PoolOp.FindOrCreateIndex 7], by decide, by decide⟩
  have hone : PoolInv { pinsFresh with
      Pool := pinsFresh.Pool.set 0
        { Id := 7, ParentNodeIdx := 3, Type_ := ImNodesAttributeType_Input } } :=
    PoolInv_write pinsFresh hfresh 0 (ImPinData.ctor 7) _ rfl rfl
  have hinv : PoolInv pinsWritten :=
    PoolInv_write _ hone 1 (ImPinData.ctor 8)
      { Id := 8, ParentNodeIdx := 4, Type_ := ImNodesAttributeType_Output } rfl rfl
  ⟨hinv, by decide, C11_update_keeps_live_slots pinsWritten hinv⟩

/-- C12. An empty frame evicts everything: on every reachable pool,
`ObjectPoolReset` followed directly by `ObjectPoolUpdate` completes, and
afterwards `ObjectPoolFind(k) = -1` for every id `k` and every slot index
`0 .. Pool length - 1` is on the free list (the length of `Pool` being what it
was). -/
theorem C12_empty_frame_evicts_all {T : Type} [PoolObject T] (p : ImObjectPool T)
    (hr : Reachable p) :
    ∃ p' : ImObjectPool T, ObjectPoolUpdate (ObjectPoolReset p) = some p' ∧
      runOps p [PoolOp.Reset, PoolOp.Update] = some p' ∧
      (∀ k : Int, ObjectPoolFind p' k = -1) ∧
      p'.Pool.length = p.Pool.length ∧
      (∀ i : Nat, i < p'.Pool.length → (i : Int) ∈ p'.FreeList) := by
  have hinv := PoolInv_reset p (Reachable_inv p hr)
  obtain ⟨p', hs, hinv', hrel, hev⟩ := update_spec (ObjectPoolReset p) hinv
  have hall : ∀ key : Nat, p'.IdMap.GetInt key (-1) = -1 := by
    intro key
    by_contra hne
    rcases hrel.getInt key with hg | hg
    · have hne0 : (ObjectPoolReset p).IdMap.GetInt key (-1) ≠ -1 := by
        rw [← hg]
        exact hne
      obtain ⟨i, obj, h1, h2, _⟩ := hinv.mapped key hne0
      have hlt : i < (ObjectPoolReset p).InUse.length := by
        rw [← hinv.len]
        exact getElem?_some_lt _ _ _ h2
      have hfalse : (ObjectPoolReset p).InUse[i]? = some false := by
        rw [reset_eq] at hlt ⊢
        simp only [List.length_replicate] at hlt
        show (List.replicate p.InUse.length false)[i]? = some false
        rw [List.getElem?_replicate, if_pos hlt]
      exact hne (hev key i h1 hfalse).1
    · exact hne hg
  refine ⟨p', hs, ?_, fun k => hall _, ?_, ?_⟩
  · rw [runOps_cons p (ObjectPoolReset p) PoolOp.Reset _ rfl,
      runOps_cons (ObjectPoolReset p) p' PoolOp.Update [] hs]
    rfl
  · rw [hrel.poolLen, reset_eq]
  · intro i hi
    have ho : p'.Pool[i]? = some p'.Pool[i] := List.getElem?_eq_getElem hi
    rcases hinv'.covered i _ ho with hc | hc
    · exact hc
    · rw [hall] at hc
      omega

/-- C12 at the reachable pool `pinsOneFree`. -/
theorem C12_empty_frame_evicts_all_witness :
    Reachable pinsOneFree ∧
    ∃ p' : ImObjectPool ImPinData, ObjectPoolUpdate (ObjectPoolReset pinsOneFree) = some p' ∧
      runOps pinsOneFree [PoolOp.Reset, PoolOp.Update] = some p' ∧
      (∀ k : Int, ObjectPoolFind p' k = -1) ∧
      p'.Pool.length = pinsOneFree.Pool.length ∧
      (∀ i : Nat, i < p'.Pool.length → (i : Int) ∈ p'.FreeList) :=
  have hreach : Reachable pinsOneFree :=
    ⟨[PoolOp.FindOrCreateIndex 7, PoolOp.FindOrCreateIndex 8, PoolOp.Update, PoolOp.Reset,
      PoolOp.FindOrCreateIndex 7, PoolOp.Update], by decide, by decide⟩
  ⟨hreach, C12_empty_frame_evicts_all pinsOneFree hreach⟩

/-! ## Which slots `ObjectPoolUpdate` evicts -/

theorem evicts_eq_true_iff {T : Type} [PoolObject T] (p : ImObjectPool T) (i : Nat) :
    evicts p i = true ↔
      ∃ obj : T, p.Pool[i]? = some obj ∧ p.InUse[i]? = some false ∧
        p.IdMap.GetInt (toImGuiID (PoolObject.Id obj)) (-1) = (i : Int) := by
  unfold evicts
  cases ho : p.Pool[i]? with
  | none => simp
  | some obj =>
    cases hu : p.InUse[i]? with
    | none => simp
    | some used => cases used <;> simp

theorem updateStep_of_not_evicts {T : Type} [PoolObject T] (p : ImObjectPool T) (i : Nat)
    (hP : i < p.Pool.length) (hU : i < p.InUse.length) (h : evicts p i = false) :
    ObjectPoolUpdateStep p i = some p := by
  have ho : p.Pool[i]? = some p.Pool[i] := List.getElem?_eq_getElem hP
  have hu : p.InUse[i]? = some p.InUse[i] := List.getElem?_eq_getElem hU
  generalize p.Pool[i] = obj at ho
  generalize p.InUse[i] = used at hu
  apply updateStep_keep p i obj used ho hu
  cases used
  · right
    intro hk
    have : evicts p i = true := (evicts_eq_true_iff p i).mpr ⟨obj, ho, hu, hk⟩
    rw [h] at this
    cases this
  · left; rfl

/-- A loop of `ObjectPoolUpdate` over slots none of which it evicts changes
nothing. -/
theorem updateLoop_of_not_evicts {T : Type} [PoolObject T] (l : List Nat) (p : ImObjectPool T)
    (hl : ∀ i ∈ l, i < p.Pool.length ∧ i < p.InUse.length) (h : ∀ i : Nat, evicts p i = false) :
    ObjectPoolUpdateLoop p l = some p := by
  induction l with
  | nil => rfl
  | cons j rest ih =>
    obtain ⟨hP, hU⟩ := hl j (List.mem_cons_self _ _)
    rw [ObjectPoolUpdateLoop, updateStep_of_not_evicts p j hP hU (h j)]
    exact ih (fun i hi => hl i (List.mem_cons_of_mem _ hi))

/-- One turn of the loop at a valid slot `i`: the free list gains `i` exactly
when the slot is evicted, and whether another slot is to be evicted does not
change. -/
theorem updateStep_evicts {T : Type} [PoolObject T] (p : ImObjectPool T) (h : PoolInv p)
    (i : Nat) (hi : i < p.InUse.length) :
    ∃ p' : ImObjectPool T, ObjectPoolUpdateStep p i = some p' ∧ PoolInv p' ∧
      p'.InUse = p.InUse ∧
      p'.FreeList = p.FreeList ++ (if evicts p i = true then [(i : Int)] else []) ∧
      (∀ j : Nat, j ≠ i → evicts p' j = evicts p j) := by
  have hiP : i < p.Pool.length := by rw [h.len]; exact hi
  by_cases he : evicts p i = true
  · obtain ⟨obj, ho, hu, hk⟩ := (evicts_eq_true_iff p i).mp he
    refine ⟨_, updateStep_evict p i obj ho hu hk, PoolInv_evict p h i obj ho hu hk, rfl, ?_, ?_⟩
    · rw [if_pos he]
    · intro j hj
      unfold evicts
      show (match (p.Pool.set i (PoolObject.dtor obj))[j]?, p.InUse[j]? with
        | some o, some used =>
          !used && (p.IdMap.SetInt (toImGuiID (PoolObject.Id obj)) (-1)).GetInt
            (toImGuiID (PoolObject.Id o)) (-1) == (j : Int)
        | _, _ => false) = _
      rw [List.getElem?_set_ne (Ne.symm hj)]
      cases hoj : p.Pool[j]? with
      | none => rfl
      | some o =>
        cases huj : p.InUse[j]? with
        | none => rfl
        | some used =>
          show (!used && (p.IdMap.SetInt (toImGuiID (PoolObject.Id obj)) (-1)).GetInt
              (toImGuiID (PoolObject.Id o)) (-1) == (j : Int)) =
            (!used && p.IdMap.GetInt (toImGuiID (PoolObject.Id o)) (-1) == (j : Int))
          by_cases hkey : toImGuiID (PoolObject.Id o) = toImGuiID (PoolObject.Id obj)
          · rw [hkey, GetInt_SetInt_same, hk]
            have h1 : ((-1 : Int) == (j : Int)) = false := by
              simp only [beq_eq_false_iff_ne, ne_eq]
              omega
            have h2 : ((i : Int) == (j : Int)) = false := by
              simp only [beq_eq_false_iff_ne, ne_eq]
              omega
            rw [h1, h2]
          · rw [GetInt_SetInt_other _ _ _ _ _ h.sorted hkey]
  · have he' : evicts p i = false := by
      cases hb : evicts p i
      · rfl
      · exact absurd hb he
    refine ⟨p, updateStep_of_not_evicts p i hiP hi he', h, rfl, ?_, fun _ _ => rfl⟩
    rw [if_neg he]
    simp

/-- The loop of `ObjectPoolUpdate` over distinct valid slots appends to the free
list the slots it evicts, in the order of the loop. -/
theorem updateLoop_freeList {T : Type} [PoolObject T] (l : List Nat) (hnd : l.Nodup)
    (p : ImObjectPool T) (h : PoolInv p) (hl : ∀ i ∈ l, i < p.InUse.length) :
    ∃ p' : ImObjectPool T, ObjectPoolUpdateLoop p l = some p' ∧
      p'.FreeList = p.FreeList ++ (l.filter (evicts p)).map (fun i : Nat => (i : Int)) := by
  induction l generalizing p with
  | nil => exact ⟨p, rfl, by simp⟩
  | cons j rest ih =>
    obtain ⟨hj, hnd'⟩ := List.nodup_cons.mp hnd
    obtain ⟨p1, hs1, hinv1, hu1, hf1, he1⟩ :=
      updateStep_evicts p h j (hl j (List.mem_cons_self _ _))
    obtain ⟨p2, hs2, hf2⟩ := ih hnd' p1 hinv1 (fun i hi => by
      rw [hu1]
      exact hl i (List.mem_cons_of_mem _ hi))
    refine ⟨p2, by rw [ObjectPoolUpdateLoop, hs1]; exact hs2, ?_⟩
    have hcongr : rest.filter (evicts p1) = rest.filter (evicts p) :=
      List.filter_congr (fun x hx => he1 x (fun hxj => hj (hxj ▸ hx)))
    rw [hf2, hf1, hcongr, List.filter_cons]
    by_cases he : evicts p j = true
    · simp [he]
    · simp [he]

/-- The free list after `ObjectPoolUpdate` is the free list before it followed
by the evicted slots in ascending order. -/
theorem update_freeList {T : Type} [PoolObject T] (p p' : ImObjectPool T) (h : PoolInv p)
    (hs : ObjectPoolUpdate p = some p') :
    p'.FreeList = p.FreeList ++ (evictedSlots p).map (fun i : Nat => (i : Int)) := by
  obtain ⟨q, hq, hf⟩ := updateLoop_freeList (List.range p.InUse.length) (List.nodup_range _) p h
    (fun i hi => List.mem_range.mp hi)
  have hq' : ObjectPoolUpdate p = some q := hq
  rw [hs] at hq'
  injection hq' with hq'
  subst hq'
  exact hf

/-- After `ObjectPoolUpdate` no slot is left to evict. -/
theorem update_no_evicts {T : Type} [PoolObject T] (p p' : ImObjectPool T) (h : PoolInv p)
    (hs : ObjectPoolUpdate p = some p') (i : Nat) : evicts p' i = false := by
  obtain ⟨q, hq, _, hrel, hev⟩ := update_spec p h
  rw [hs] at hq
  injection hq with hq
  subst hq
  cases hb : evicts p' i
  · rfl
  · exfalso
    obtain ⟨obj, _, hu, hk⟩ := (evicts_eq_true_iff p' i).mp hb
    rcases hrel.getInt (toImGuiID (PoolObject.Id obj)) with hg | hg
    · rw [hk] at hg
      have := (hev _ i hg.symm (by rw [← hrel.inUse]; exact hu)).1
      rw [hk] at this
      omega
    · rw [hk] at hg
      omega

theorem getIntAux_of_mem (l : List ImGuiStoragePair)
    (hs : (l.map ImGuiStoragePair.key).Pairwise (· < ·)) (pair : ImGuiStoragePair)
    (hp : pair ∈ l) (d : Int) : ImGuiStorage.getIntAux l pair.key d = pair.val_i := by
  induction l with
  | nil => cases hp
  | cons q rest ih =>
    simp only [List.map_cons, List.pairwise_cons] at hs
    rcases List.mem_cons.mp hp with hp' | hp'
    · subst hp'
      exact getIntAux_cons_eq _ _ _ _ rfl
    · have hlt : q.key < pair.key := hs.1 _ (List.mem_map_of_mem _ hp')
      rw [getIntAux_cons_lt _ _ _ _ hlt]
      exact ih hs.2 hp'

/-! ## Claims about eviction order, safety and idempotence -/

/-- C17. On every reachable pool `ObjectPoolUpdate` keeps the previous free list
as a prefix and appends the slots it evicts in ascending slot-index order; the
evicted slots are exactly the slots that are on the free list after the call
and were not before.  So when the call evicts at least one slot, the next
`ObjectPoolFindOrCreateIndex` for an unmapped `int` id returns the largest slot
index evicted by that call and does not grow `Pool`. -/
theorem C17_reuse_order {T : Type} [PoolObject T] (p : ImObjectPool T) (hr : Reachable p) :
    ∃ p' : ImObjectPool T, ObjectPoolUpdate p = some p' ∧
      p'.FreeList = p.FreeList ++ (evictedSlots p).map (fun i : Nat => (i : Int)) ∧
      (evictedSlots p).Pairwise (· < ·) ∧
      (∀ i : Nat, i ∈ evictedSlots p ↔ ((i : Int) ∈ p'.FreeList ∧ (i : Int) ∉ p.FreeList)) ∧
      (evictedSlots p ≠ [] → ∀ id : Int, isInt id → ObjectPoolFind p' id = -1 →
        ∃ (m : Nat) (q : ImObjectPool T),
          ObjectPoolFindOrCreateIndex p' id = some ((m : Int), q) ∧
          m ∈ evictedSlots p ∧ (∀ i ∈ evictedSlots p, i ≤ m) ∧
          q.Pool.length = p'.Pool.length ∧ q.Pool.length = p.Pool.length) := by
  have hinv := Reachable_inv p hr
  obtain ⟨p', hs, hinv', hrel, _⟩ := update_spec p hinv
  have hfl := update_freeList p p' hinv hs
  have hsorted : (evictedSlots p).Pairwise (· < ·) :=
    (List.pairwise_lt_range _).sublist (List.filter_sublist _)
  have hnotfree : ∀ i : Nat, i ∈ evictedSlots p → (i : Int) ∉ p.FreeList := by
    intro i hi
    obtain ⟨obj, _, _, hk⟩ := (evicts_eq_true_iff p i).mp (List.mem_filter.mp hi).2
    have hne : p.IdMap.GetInt (toImGuiID (PoolObject.Id obj)) (-1) ≠ -1 := by rw [hk]; omega
    obtain ⟨j, _, h1, _, _, _, h5⟩ := hinv.mapped _ hne
    rw [hk] at h1
    rw [h1]
    exact h5
  refine ⟨p', hs, hfl, hsorted, ?_, ?_⟩
  · intro i
    constructor
    · intro hi
      refine ⟨?_, hnotfree i hi⟩
      rw [hfl]
      exact List.mem_append_right _ (List.mem_map_of_mem _ hi)
    · rintro ⟨hmem, hnot⟩
      rw [hfl] at hmem
      rcases List.mem_append.mp hmem with hm | hm
      · exact absurd hm hnot
      · obtain ⟨j, hj, hji⟩ := List.mem_map.mp hm
        have := Int.ofNat_inj.mp hji
        subst this
        exact hj
  · intro hne id _ hfind
    rcases List.eq_nil_or_concat (evictedSlots p) with hnil | ⟨ev, m, hev⟩
    · exact absurd hnil hne
    · rw [List.concat_eq_append] at hev
      have hfl' : p'.FreeList = (p.FreeList ++ ev.map (fun i : Nat => (i : Int))) ++ [(m : Int)] := by
        rw [hfl, hev, List.map_append, List.append_assoc]
        rfl
      have hmmem : (m : Int) ∈ p'.FreeList := by rw [hfl']; simp
      obtain ⟨j, hj, hju⟩ := hinv'.free _ hmmem
      have hjm := Int.ofNat_inj.mp hj
      subst hjm
      have hmU := getElem?_some_lt _ _ _ hju
      have hmP : m < p'.Pool.length := by rw [hinv'.len]; exact hmU
      refine ⟨m, _, foc_reuse p' id _ m hfind hfl' hmP hmU, ?_, ?_, ?_, ?_⟩
      · rw [hev]; simp
      · intro i hi
        rw [hev] at hi hsorted
        rcases List.mem_append.mp hi with hi' | hi'
        · have := (List.pairwise_append.mp hsorted).2.2 i hi' m (by simp)
          omega
        · simp only [List.mem_singleton] at hi'
          omega
      · exact List.length_set _ _ _
      · show (p'.Pool.set m (PoolObject.ctor id)).length = p.Pool.length
        rw [List.length_set]
        exact hrel.poolLen

/-- C17 at the reachable pool of pins 7, 8 and 9 after a frame that declares
only pin 8: slots 0 and 2 are evicted and slot 2 is reused first. -/
theorem C17_reuse_order_witness :
    Reachable pinsOneDeclared ∧
    ∃ p' : ImObjectPool ImPinData,
      ObjectPoolUpdate pinsOneDeclared =
        some p' ∧
      p'.FreeList = [0, 2] :=
  have hreach : Reachable pinsOneDeclared :=
    ⟨[PoolOp.FindOrCreateIndex 7, PoolOp.FindOrCreateIndex 8, PoolOp.FindOrCreateIndex 9,
      PoolOp.Reset, PoolOp.FindOrCreateIndex 8], by decide, by decide⟩
  ⟨hreach, by
    obtain ⟨p', hs, hfl, _⟩ := C17_reuse_order _ hreach
    exact ⟨p', hs, by rw [hfl]; decide⟩⟩

/-- C19. The pool operations never fail on reachable states: in every reachable
pool `Pool` and `InUse` have equal length (the `IM_ASSERT` of
`ObjectPoolFindOrCreateIndex`), every free-list entry is an index `i` with
`0 <= i < Pool length`, every value of `IdMap` other than `-1`, looked up or
stored, is such an index too, and hence `ObjectPoolUpdate` and, for every `int`
id, `ObjectPoolFindOrCreateIndex` complete: none of their accesses `Pool[i]`,
`InUse[i]`, `InUse[index]` leaves its vector and no assertion fails. -/
theorem C19_operations_safe {T : Type} [PoolObject T] (p : ImObjectPool T) (hr : Reachable p) :
    p.Pool.length = p.InUse.length ∧
    (∀ x ∈ p.FreeList, 0 ≤ x ∧ x < (p.Pool.length : Int)) ∧
    (∀ key : Nat, p.IdMap.GetInt key (-1) ≠ -1 →
      0 ≤ p.IdMap.GetInt key (-1) ∧ p.IdMap.GetInt key (-1) < (p.Pool.length : Int)) ∧
    (∀ pair ∈ p.IdMap.Data, pair.val_i ≠ -1 →
      0 ≤ pair.val_i ∧ pair.val_i < (p.Pool.length : Int)) ∧
    (∀ i : Nat, i < p.InUse.length → ∃ q : ImObjectPool T, ObjectPoolUpdateStep p i = some q) ∧
    (∃ q : ImObjectPool T, ObjectPoolUpdate p = some q) ∧
    (∀ id : Int, isInt id →
      ∃ (r : Int) (q : ImObjectPool T), ObjectPoolFindOrCreateIndex p id = some (r, q) ∧
        0 ≤ r ∧ r < (q.InUse.length : Int) ∧ r < (q.Pool.length : Int)) := by
  have hinv := Reachable_inv p hr
  have hmap : ∀ key : Nat, p.IdMap.GetInt key (-1) ≠ -1 →
      0 ≤ p.IdMap.GetInt key (-1) ∧ p.IdMap.GetInt key (-1) < (p.Pool.length : Int) := by
    intro key hne
    obtain ⟨i, _, h1, h2, _⟩ := hinv.mapped key hne
    have := getElem?_some_lt _ _ _ h2
    rw [h1]
    omega
  refine ⟨hinv.len, ?_, hmap, ?_, ?_, ?_, ?_⟩
  · intro x hx
    obtain ⟨i, rfl, hi⟩ := hinv.free x hx
    have := getElem?_some_lt _ _ _ hi
    have := hinv.len
    omega
  · intro pair hp hne
    have hget : p.IdMap.GetInt pair.key (-1) = pair.val_i :=
      getIntAux_of_mem p.IdMap.Data hinv.sorted pair hp (-1)
    have := hmap pair.key (by rw [hget]; exact hne)
    rw [hget] at this
    exact this
  · intro i hi
    obtain ⟨q, hq, _⟩ := updateStep_spec p hinv i hi
    exact ⟨q, hq⟩
  · obtain ⟨q, hq, _⟩ := update_spec p hinv
    exact ⟨q, hq⟩
  · intro id hid
    obtain ⟨i, q, hs, hinv', _, _, hfl, _⟩ := foc_spec p hinv id hid
    have := getElem?_some_lt _ _ _ hfl
    have := hinv'.len
    exact ⟨i, q, hs, by omega, by omega, by omega⟩

/-- C19 at the reachable pool `pinsOneFree`. -/
theorem C19_operations_safe_witness :
    Reachable pinsOneFree ∧
    pinsOneFree.Pool.length = pinsOneFree.InUse.length ∧
    (∃ q : ImObjectPool ImPinData, ObjectPoolUpdate pinsOneFree = some q) ∧
    (∃ (r : Int) (q : ImObjectPool ImPinData),
      ObjectPoolFindOrCreateIndex pinsOneFree 9 = some (r, q) ∧
      0 ≤ r ∧ r < (q.InUse.length : Int) ∧ r < (q.Pool.length : Int)) :=
  have hreach : Reachable pinsOneFree :=
    ⟨[PoolOp.FindOrCreateIndex 7, PoolOp.FindOrCreateIndex 8, PoolOp.Update, PoolOp.Reset,
      PoolOp.FindOrCreateIndex 7, PoolOp.Update], by decide, by decide⟩
  ⟨hreach, (C19_operations_safe pinsOneFree hreach).1,
    (C19_operations_safe pinsOneFree hreach).2.2.2.2.2.1,
    (C19_operations_safe pinsOneFree hreach).2.2.2.2.2.2 9 (by decide)⟩

/-- C20. Garbage collection is idempotent: on every reachable pool, of any element
type (that of `ImNodeData`, whose destructor overwrites `Id` with `INT_MIN`,
included), `ObjectPoolUpdate` completes, and a second `ObjectPoolUpdate` right
after it returns the very same pool: it evicts no slot, adds nothing to the free
list and changes no lookup. -/
theorem C20_update_idempotent {T : Type} [PoolObject T] (p : ImObjectPool T) (hr : Reachable p) :
    ∃ p' : ImObjectPool T, ObjectPoolUpdate p = some p' ∧ ObjectPoolUpdate p' = some p' ∧
      runOps p [PoolOp.Update, PoolOp.Update] = runOps p [PoolOp.Update] ∧
      evictedSlots p' = [] := by
  have hinv := Reachable_inv p hr
  obtain ⟨p', hs, hinv', _, _⟩ := update_spec p hinv
  have hno := update_no_evicts p p' hinv hs
  have hs2 : ObjectPoolUpdate p' = some p' :=
    updateLoop_of_not_evicts (List.range p'.InUse.length) p'
      (fun i hi => ⟨by rw [hinv'.len]; exact List.mem_range.mp hi, List.mem_range.mp hi⟩) hno
  refine ⟨p', hs, hs2, ?_, ?_⟩
  · rw [runOps_cons p p' PoolOp.Update _ hs, runOps_cons p p' PoolOp.Update _ hs,
      runOps_cons p' p' PoolOp.Update _ hs2]
  · unfold evictedSlots
    rw [List.filter_eq_nil_iff]
    intro i _
    rw [hno i]
    simp

/-- C20 at a reachable pool of nodes in which the node with id `INT_MIN` is live
in slot 0 and node 5 in slot 1 is about to be evicted, its `Id` becoming
`INT_MIN` as well. -/
theorem C20_update_idempotent_witness :
    Reachable nodesWithIntMin ∧
    ∃ p' : ImObjectPool ImNodeData,
      ObjectPoolUpdate nodesWithIntMin =
        some p' ∧
      ObjectPoolUpdate p' = some p' ∧
      p'.Pool = [ImNodeData.ctor INT_MIN, ImNodeData.ctor INT_MIN] :=
  have hreach : Reachable nodesWithIntMin :=
    ⟨[PoolOp.FindOrCreateIndex INT_MIN, PoolOp.FindOrCreateIndex 5, PoolOp.Reset,
      PoolOp.FindOrCreateIndex INT_MIN], by decide, by decide⟩
  ⟨hreach, by
    obtain ⟨p', hs, hs2, _⟩ := C20_update_idempotent _ hreach
    refine ⟨p', hs, hs2, ?_⟩
    have h0 : ObjectPoolUpdate nodesWithIntMin =
        some { Pool := [ImNodeData.ctor INT_MIN, ImNodeData.ctor INT_MIN],
               InUse := [true, false], FreeList := [1],
               IdMap := ⟨[⟨5, -1⟩, ⟨2147483648, 0⟩]⟩ } := by decide
    rw [h0] at hs
    injection hs with hs
    rw [← hs]⟩

/-! ## Claims about the selection and the partition of the slots -/

/-- C16, as stated, fails: `ObjectPoolUpdate` is handed the pool alone and prunes
no selection.  In `editorStaleSelection` node 5 sits unflagged in slot 0 and
slot 0 is selected; garbage-collecting the node pool evicts slot 0 (node 5
becomes absent and slot 0 joins the free list) and `SelectedNodeIndices` still
contains 0.  The same holds for link 3 and `SelectedLinkIndices`. -/
theorem C16_selection_pruned_counterexample :
    (∃ editor' : ImNodesEditorContext,
      updateNodes editorStaleSelection = some editor' ∧
      ObjectPoolFind editorStaleSelection.Nodes 5 = 0 ∧
      ObjectPoolFind editor'.Nodes 5 = -1 ∧
      (0 : Int) ∉ editorStaleSelection.Nodes.FreeList ∧ (0 : Int) ∈ editor'.Nodes.FreeList ∧
      (0 : Int) ∈ editor'.SelectedNodeIndices) ∧
    (∃ editor' : ImNodesEditorContext,
      updateLinks editorStaleSelection = some editor' ∧
      ObjectPoolFind editorStaleSelection.Links 3 = 0 ∧
      ObjectPoolFind editor'.Links 3 = -1 ∧
      (0 : Int) ∉ editorStaleSelection.Links.FreeList ∧ (0 : Int) ∈ editor'.Links.FreeList ∧
      (0 : Int) ∈ editor'.SelectedLinkIndices) := by
  refine ⟨⟨{ editorStaleSelection with
      Nodes := { Pool := [ImNodeData.dtor (ImNodeData.ctor 5)], InUse := [false],
                 FreeList := [0], IdMap := ⟨[⟨5, -1⟩]⟩ } }, ?_⟩,
    ⟨{ editorStaleSelection with
      Links := { Pool := [ImLinkData.ctor 3], InUse := [false],
                 FreeList := [0], IdMap := ⟨[⟨3, -1⟩]⟩ } }, ?_⟩⟩
  · decide
  · decide

/-- C16, amended.  For every editor context whose node pool and link pool are
reachable, garbage-collecting the node pool (respectively the link pool) with
`ObjectPoolUpdate` completes and leaves `SelectedNodeIndices` and
`SelectedLinkIndices` exactly as they were.  A selected slot index is evicted by
the call exactly when the loop condition held for it, its slot being mapped and
not declared in this frame; so the selection holds no index evicted by the call
provided every selected index denoted a slot declared in this frame. -/
theorem C16_update_leaves_selection (editor : ImNodesEditorContext)
    (hn : Reachable editor.Nodes) (hl : Reachable editor.Links) :
    (∃ editor' : ImNodesEditorContext, updateNodes editor = some editor' ∧
      editor'.SelectedNodeIndices = editor.SelectedNodeIndices ∧
      editor'.SelectedLinkIndices = editor.SelectedLinkIndices ∧
      (∀ i : Nat, (i : Int) ∈ editor'.SelectedNodeIndices →
        (((i : Int) ∈ editor'.Nodes.FreeList ∧ (i : Int) ∉ editor.Nodes.FreeList) ↔
          evicts editor.Nodes i = true)) ∧
      ((∀ i : Nat, (i : Int) ∈ editor.SelectedNodeIndices →
          editor.Nodes.InUse[i]? = some true) →
        ∀ x ∈ editor'.SelectedNodeIndices,
          ¬ (x ∈ editor'.Nodes.FreeList ∧ x ∉ editor.Nodes.FreeList))) ∧
    (∃ editor' : ImNodesEditorContext, updateLinks editor = some editor' ∧
      editor'.SelectedNodeIndices = editor.SelectedNodeIndices ∧
      editor'.SelectedLinkIndices = editor.SelectedLinkIndices ∧
      (∀ i : Nat, (i : Int) ∈ editor'.SelectedLinkIndices →
        (((i : Int) ∈ editor'.Links.FreeList ∧ (i : Int) ∉ editor.Links.FreeList) ↔
          evicts editor.Links i = true)) ∧
      ((∀ i : Nat, (i : Int) ∈ editor.SelectedLinkIndices →
          editor.Links.InUse[i]? = some true) →
        ∀ x ∈ editor'.SelectedLinkIndices,
          ¬ (x ∈ editor'.Links.FreeList ∧ x ∉ editor.Links.FreeList))) := by
  have main : ∀ {T : Type} [PoolObject T] (p : ImObjectPool T), PoolInv p →
      ∃ p' : ImObjectPool T, ObjectPoolUpdate p = some p' ∧
        (∀ i : Nat, (((i : Int) ∈ p'.FreeList ∧ (i : Int) ∉ p.FreeList) ↔ evicts p i = true)) ∧
        (∀ x : Int, x ∈ p'.FreeList → x ∉ p.FreeList →
          ∃ i : Nat, x = (i : Int) ∧ p.InUse[i]? = some false) := by
    intro T _ p hinv
    obtain ⟨p', hs, _, hrel, _⟩ := update_spec p hinv
    have hfl := update_freeList p p' hinv hs
    refine ⟨p', hs, ?_, ?_⟩
    · intro i
      constructor
      · rintro ⟨hmem, hnot⟩
        rw [hfl] at hmem
        rcases List.mem_append.mp hmem with hm | hm
        · exact absurd hm hnot
        · obtain ⟨j, hj, hji⟩ := List.mem_map.mp hm
          have := Int.ofNat_inj.mp hji
          subst this
          exact (List.mem_filter.mp hj).2
      · intro he
        obtain ⟨obj, _, hu, hk⟩ := (evicts_eq_true_iff p i).mp he
        have hne : p.IdMap.GetInt (toImGuiID (PoolObject.Id obj)) (-1) ≠ -1 := by
          rw [hk]; omega
        obtain ⟨j, _, h1, _, _, _, h5⟩ := hinv.mapped _ hne
        rw [hk] at h1
        refine ⟨?_, by rw [h1]; exact h5⟩
        rw [hfl]
        apply List.mem_append_right
        apply List.mem_map_of_mem
        exact List.mem_filter.mpr ⟨List.mem_range.mpr (getElem?_some_lt _ _ _ hu), he⟩
    · intro x hx hnot
      rcases hrel.freeNew x hx with hold | hnew
      · exact absurd hold hnot
      · exact hnew
  constructor
  · obtain ⟨nodes, hs, hiff, hnew⟩ := main editor.Nodes (Reachable_inv _ hn)
    refine ⟨{ editor with Nodes := nodes }, by simp [updateNodes, hs], rfl, rfl,
      fun i _ => hiff i, ?_⟩
    intro hsel x hx hev
    obtain ⟨i, rfl, hi⟩ := hnew x hev.1 hev.2
    have := hsel i hx
    rw [hi] at this
    cases this
  · obtain ⟨links, hs, hiff, hnew⟩ := main editor.Links (Reachable_inv _ hl)
    refine ⟨{ editor with Links := links }, by simp [updateLinks, hs], rfl, rfl,
      fun i _ => hiff i, ?_⟩
    intro hsel x hx hev
    obtain ⟨i, rfl, hi⟩ := hnew x hev.1 hev.2
    have := hsel i hx
    rw [hi] at this
    cases this

/-- C16, amended, at the editor context `editorStaleSelection`. -/
theorem C16_update_leaves_selection_witness :
    Reachable editorStaleSelection.Nodes ∧ Reachable editorStaleSelection.Links ∧
    ∃ editor' : ImNodesEditorContext, updateNodes editorStaleSelection = some editor' ∧
      editor'.SelectedNodeIndices = [0] ∧ editor'.SelectedLinkIndices = [0] :=
  have hn : Reachable editorStaleSelection.Nodes :=
    ⟨[PoolOp.FindOrCreateIndex 5, PoolOp.Reset], by decide, by decide⟩
  have hl : Reachable editorStaleSelection.Links :=
    ⟨[PoolOp.FindOrCreateIndex 3, PoolOp.Reset], by decide, by decide⟩
  ⟨hn, hl, by
    obtain ⟨⟨e, hs, h1, h2, _⟩, _⟩ := C16_update_leaves_selection editorStaleSelection hn hl
    exact ⟨e, hs, h1, h2⟩⟩

/-- A slot that is not on the free list holds an object with an `int` id that
is mapped to the slot. -/
theorem slot_live {T : Type} [PoolObject T] (p : ImObjectPool T) (h : PoolInv p) (i : Nat)
    (hi : i < p.Pool.length) (hfree : (i : Int) ∉ p.FreeList) :
    ∃ obj : T, p.Pool[i]? = some obj ∧ isInt (PoolObject.Id obj) ∧
      ObjectPoolFind p (PoolObject.Id obj) = (i : Int) := by
  have ho : p.Pool[i]? = some p.Pool[i] := List.getElem?_eq_getElem hi
  generalize p.Pool[i] = obj at ho
  rcases h.covered i obj ho with hc | hc
  · exact absurd hc hfree
  · have hne : p.IdMap.GetInt (toImGuiID (PoolObject.Id obj)) (-1) ≠ -1 := by rw [hc]; omega
    obtain ⟨j, o, h1, h2, h3, _⟩ := h.mapped _ hne
    rw [hc] at h1
    have := Int.ofNat_inj.mp h1
    subst this
    rw [ho] at h2
    injection h2 with h2
    subst h2
    exact ⟨obj, ho, h3, hc⟩

theorem mem_liveIds {T : Type} [PoolObject T] (p : ImObjectPool T) (h : PoolInv p) (k : Int) :
    k ∈ liveIds p ↔ isInt k ∧ ObjectPoolFind p k ≠ -1 := by
  unfold liveIds
  constructor
  · intro hk
    obtain ⟨i, hi, hik⟩ := List.mem_map.mp hk
    obtain ⟨hrange, hcond⟩ := List.mem_filter.mp hi
    have hfree : (i : Int) ∉ p.FreeList := by simpa using hcond
    obtain ⟨obj, ho, hint, hfind⟩ := slot_live p h i (List.mem_range.mp hrange) hfree
    have hid : PoolObject.Id obj = k := by
      rw [← hik, ho]
      rfl
    rw [← hid]
    exact ⟨hint, by rw [hfind]; omega⟩
  · rintro ⟨hk, hne⟩
    obtain ⟨i, obj, _, h2, h3, h4, h5⟩ := h.mapped (toImGuiID k) hne
    have hid : PoolObject.Id obj = k := toImGuiID_inj h3 hk h4
    refine List.mem_map.mpr ⟨i, List.mem_filter.mpr ⟨List.mem_range.mpr
      (getElem?_some_lt _ _ _ h2), by simpa using h5⟩, ?_⟩
    show (p.Pool[i]?.map PoolObject.Id).getD 0 = k
    rw [h2]
    exact hid

theorem nodup_liveIds {T : Type} [PoolObject T] (p : ImObjectPool T) (h : PoolInv p) :
    (liveIds p).Nodup := by
  unfold liveIds
  refine List.Nodup.map_on ?_ ((List.nodup_range _).filter _)
  have key : ∀ x ∈ (List.range p.Pool.length).filter
      (fun i : Nat => !decide ((i : Int) ∈ p.FreeList)),
      ObjectPoolFind p ((p.Pool[x]?.map PoolObject.Id).getD 0) = (x : Int) := by
    intro x hx
    obtain ⟨hrange, hcond⟩ := List.mem_filter.mp hx
    have hfree : (x : Int) ∉ p.FreeList := by simpa using hcond
    obtain ⟨obj, ho, _, hfind⟩ := slot_live p h x (List.mem_range.mp hrange) hfree
    rw [ho]
    exact hfind
  intro x hx y hy hxy
  have h1 := key x hx
  have h2 := key y hy
  rw [hxy, h2] at h1
  exact (Int.ofNat_inj.mp h1).symm

theorem length_liveIds {T : Type} [PoolObject T] (p : ImObjectPool T) (h : PoolInv p) :
    p.Pool.length = (liveIds p).length + p.FreeList.length := by
  have hsplit : (List.range p.Pool.length).length =
      ((List.range p.Pool.length).filter (fun i : Nat => decide ((i : Int) ∈ p.FreeList))).length +
      ((List.range p.Pool.length).filter
        (fun i : Nat => !decide ((i : Int) ∈ p.FreeList))).length := by
    rw [← List.countP_eq_length_filter, ← List.countP_eq_length_filter,
      List.length_eq_countP_add_countP (fun i : Nat => decide ((i : Int) ∈ p.FreeList))]
    congr 1
    simp
  have hnd : (p.FreeList.map Int.toNat).Nodup := by
    refine List.Nodup.map_on ?_ h.nodup
    intro x hx y hy hxy
    obtain ⟨i, rfl, _⟩ := h.free x hx
    obtain ⟨j, rfl, _⟩ := h.free y hy
    simp only [Int.toNat_ofNat] at hxy
    rw [hxy]
  have hperm : ((List.range p.Pool.length).filter
      (fun i : Nat => decide ((i : Int) ∈ p.FreeList))).Perm (p.FreeList.map Int.toNat) := by
    rw [List.perm_ext_iff_of_nodup ((List.nodup_range _).filter _) hnd]
    intro a
    constructor
    · intro ha
      obtain ⟨_, hcond⟩ := List.mem_filter.mp ha
      have hmem : (a : Int) ∈ p.FreeList := by simpa using hcond
      exact List.mem_map.mpr ⟨(a : Int), hmem, Int.toNat_ofNat a⟩
    · intro ha
      obtain ⟨x, hx, hxa⟩ := List.mem_map.mp ha
      obtain ⟨i, rfl, hi⟩ := h.free x hx
      simp only [Int.toNat_ofNat] at hxa
      subst hxa
      have hlt : i < p.Pool.length := by
        rw [h.len]
        exact getElem?_some_lt _ _ _ hi
      exact List.mem_filter.mpr ⟨List.mem_range.mpr hlt, by simpa using hx⟩
  have hlen := hperm.length_eq
  rw [List.length_map] at hlen
  rw [List.length_range] at hsplit
  unfold liveIds
  rw [List.length_map]
  omega

/-- C18. In every reachable pool the slots are partitioned between the live ids
and the free list: the free list has no duplicate entry; every slot index
`0 .. Pool length - 1` is either the `ObjectPoolFind` result of exactly one
`int` id and not on the free list, or the result of no id and on the free list
exactly once; and so the length of `Pool` is the number of ids with a non-absent
lookup, listed without repetition by `liveIds`, plus the length of the free
list. -/
theorem C18_slot_partition {T : Type} [PoolObject T] (p : ImObjectPool T) (hr : Reachable p) :
    p.FreeList.Nodup ∧
    (∀ i : Nat, i < p.Pool.length →
      ((∃ k : Int, isInt k ∧ ObjectPoolFind p k = (i : Int) ∧
          ∀ k' : Int, isInt k' → ObjectPoolFind p k' = (i : Int) → k' = k) ∧
        (i : Int) ∉ p.FreeList) ∨
      ((∀ k : Int, ObjectPoolFind p k ≠ (i : Int)) ∧ p.FreeList.count (i : Int) = 1)) ∧
    (∀ x ∈ p.FreeList, 0 ≤ x ∧ x < (p.Pool.length : Int)) ∧
    (liveIds p).Nodup ∧
    (∀ k : Int, k ∈ liveIds p ↔ isInt k ∧ ObjectPoolFind p k ≠ -1) ∧
    p.Pool.length = (liveIds p).length + p.FreeList.length := by
  have hinv := Reachable_inv p hr
  refine ⟨hinv.nodup, ?_, ?_, nodup_liveIds p hinv, mem_liveIds p hinv,
    length_liveIds p hinv⟩
  · intro i hi
    by_cases hfree : (i : Int) ∈ p.FreeList
    · right
      refine ⟨?_, List.count_eq_one_of_mem hinv.nodup hfree⟩
      intro k hk
      have hne : p.IdMap.GetInt (toImGuiID k) (-1) ≠ -1 := by
        change ObjectPoolFind p k ≠ -1
        rw [hk]
        omega
      obtain ⟨j, _, h1, _, _, _, h5⟩ := hinv.mapped (toImGuiID k) hne
      have hji : (j : Int) = (i : Int) := by
        rw [← h1]
        exact hk
      rw [hji] at h5
      exact h5 hfree
    · left
      obtain ⟨obj, _, hint, hfind⟩ := slot_live p hinv i hi hfree
      refine ⟨⟨PoolObject.Id obj, hint, hfind, ?_⟩, hfree⟩
      intro k' hk' hfind'
      exact find_inj p hinv k' _ hk' hint (hfind'.trans hfind.symm) (by rw [hfind']; omega)
  · intro x hx
    obtain ⟨i, rfl, hi⟩ := hinv.free x hx
    have := getElem?_some_lt _ _ _ hi
    have := hinv.len
    omega

/-- C18 at the reachable pool `pinsOneFree`: slot 0 belongs to pin 7, slot 1 to
the free list. -/
theorem C18_slot_partition_witness :
    Reachable pinsOneFree ∧ pinsOneFree.FreeList.Nodup ∧ liveIds pinsOneFree = [7] ∧
    pinsOneFree.Pool.length = (liveIds pinsOneFree).length + pinsOneFree.FreeList.length :=
  have hreach : Reachable pinsOneFree :=
    ⟨[PoolOp.FindOrCreateIndex 7, PoolOp.FindOrCreateIndex 8, PoolOp.Update, PoolOp.Reset,
      PoolOp.FindOrCreateIndex 7, PoolOp.Update], by decide, by decide⟩
  ⟨hreach, (C18_slot_partition pinsOneFree hreach).1, by decide,
    (C18_slot_partition pinsOneFree hreach).2.2.2.2.2⟩

end ImNodes
